import Mathlib

/-!
# LRU file cache (`lru.go`): shallow embedding and verification

The Go program keeps a map `Cache` from file names to `*element`, a doubly
linked list of elements (`Header` = most recently used, `Tailer` = least
recently used) and a byte budget `MaxSize`.

Embedding choices.

* Pointers are addresses into an explicit heap (`lruProvider.heap`, a list of
  `element`s; the address is the index).  `nil` is `none`.  `&element{...}`
  allocates at the end of the heap, so a fresh address is never in use.
  Elements dropped by the program stay in the heap as garbage.
* Dereferencing `nil` is the fault `Fault.nilDeref` (the Go runtime panic).
* `int64` arithmetic is `Int` arithmetic followed by `wrap64`.
* The file system is a parameter: `Storage` says, for a name, which of
  `os.Open`, `fp.Stat`, `fp.Read` fails, or which buffer `fp.Read` fills
  (its length is the `fs.Size()` the buffer was made with).
* The map `Cache` is an association list with `mapGet`, `mapDelete`,
  `mapSet` for `m[k]`, `delete(m, k)` and `m[k] = v`.
* `Read` is embedded as one sequential call. The order in which a call
  takes the mutex and touches the cache is given separately, by `ReadEvents`.
-/

namespace LRU

/-! ## Data model -/

/-- Contents of a file: the bytes of a Go `[]byte`. -/
abbrev Bytes := List Nat

/-- Run-time failures of the embedded code. `nilDeref` is Go's nil pointer
dereference panic; `badPtr` is an address outside the heap (no Go pointer is
one); `outOfFuel` is a loop that used up the iteration bound of the model. -/
inductive Fault where
  | nilDeref
  | badPtr
  | outOfFuel
deriving DecidableEq, Repr

/-- Go `type element struct`. -/
structure element where
  name : String
  bufSize : Int
  content : Bytes
  prevElem : Option Nat
  postElem : Option Nat
deriving DecidableEq, Repr

/-- Go `type lruProvider struct`, together with the heap its pointers live in. -/
structure lruProvider where
  Cache : List (String × Nat)
  CacheSize : Int
  MaxSize : Int
  Header : Option Nat
  Tailer : Option Nat
  heap : List element
deriving DecidableEq, Repr

/-- What the file system answers for one name: the first of `os.Open`,
`fp.Stat`, `fp.Read` that fails (with its error), or the buffer read. -/
inductive FetchResult where
  | openErr (err : String)
  | statErr (err : String)
  | readErr (err : String)
  | ok (content : Bytes)
deriving DecidableEq, Repr

/-- The file system as seen by `Read`. -/
abbrev Storage := String → FetchResult

/-- Two's complement wrap-around of `int64` arithmetic. -/
def wrap64 (x : Int) : Int :=
  (x + 9223372036854775808) % 18446744073709551616 - 9223372036854775808

/-! ## Map operations -/

/-- Go `m[k]` with the `ok` flag. -/
def mapGet (m : List (String × Nat)) (k : String) : Option Nat :=
  match m with
  | [] => none
  | (k', v) :: rest => if k' = k then some v else mapGet rest k

/-- Go `delete(m, k)`. -/
def mapDelete (m : List (String × Nat)) (k : String) : List (String × Nat) :=
  match m with
  | [] => []
  | (k', v) :: rest => if k' = k then mapDelete rest k else (k', v) :: mapDelete rest k

/-- Go `m[k] = v`. -/
def mapSet (m : List (String × Nat)) (k : String) (v : Nat) : List (String × Nat) :=
  (k, v) :: mapDelete m k

/-! ## Heap operations -/

/-- Read through a pointer. -/
def load (h : List element) (p : Option Nat) : Except Fault element :=
  match p with
  | none => .error .nilDeref
  | some a =>
    match h[a]? with
    | none => .error .badPtr
    | some e => .ok e

/-- Go `p.prevElem = v`. -/
def storePrev (h : List element) (p : Option Nat) (v : Option Nat) :
    Except Fault (List element) :=
  match p with
  | none => .error .nilDeref
  | some a =>
    match h[a]? with
    | none => .error .badPtr
    | some e => .ok (h.set a { e with prevElem := v })

/-- Go `p.postElem = v`. -/
def storePost (h : List element) (p : Option Nat) (v : Option Nat) :
    Except Fault (List element) :=
  match p with
  | none => .error .nilDeref
  | some a =>
    match h[a]? with
    | none => .error .badPtr
    | some e => .ok (h.set a { e with postElem := v })

/-! ## The program -/

/-- Go `NewLRUProvider`. -/
def NewLRUProvider (size : Int) : lruProvider :=
  { Cache := [], CacheSize := 0, MaxSize := size, Header := none, Tailer := none, heap := [] }

/-- Lines 51-66 of `Read`: the hit path's move of `item` to the head. -/
def promote (lru : lruProvider) (item : Nat) : Except Fault lruProvider :=
  if lru.Header ≠ some item then
    match load lru.heap (some item) with
    | .error f => .error f
    | .ok curr =>
      let prev := curr.prevElem
      let post := curr.postElem
      let unlinked : Except Fault lruProvider :=
        if lru.Tailer = some item then
          match storePost lru.heap prev none with
          | .error f => .error f
          | .ok h => .ok { lru with heap := h, Tailer := prev }
        else
          match storePost lru.heap prev post with
          | .error f => .error f
          | .ok h =>
            match storePrev h post prev with
            | .error f => .error f
            | .ok h => .ok { lru with heap := h }
      match unlinked with
      | .error f => .error f
      | .ok lru =>
        match storePrev lru.heap (some item) none with
        | .error f => .error f
        | .ok h =>
          match storePost h (some item) lru.Header with
          | .error f => .error f
          | .ok h =>
            match storePrev h lru.Header (some item) with
            | .error f => .error f
            | .ok h => .ok { lru with heap := h, Header := some item }
  else
    .ok lru

/-- Lines 95-103 of `Read`: the eviction loop takes the tail off the list. -/
def unlinkTail (lru : lruProvider) : Except Fault lruProvider :=
  let pointer := lru.Tailer
  if pointer = lru.Header then
    .ok { lru with Header := none, Tailer := none }
  else
    match load lru.heap pointer with
    | .error f => .error f
    | .ok pe =>
      let prev := pe.prevElem
      match storePost lru.heap prev none with
      | .error f => .error f
      | .ok h => .ok { lru with heap := h, Tailer := prev }

/-- Lines 95-110 of `Read`: one pass through the body of the eviction loop.
Returns the `bufSize` of the element taken from the tail. -/
def evictStep (lru : lruProvider) : Except Fault (Int × lruProvider) :=
  let pointer := lru.Tailer
  match unlinkTail lru with
  | .error f => .error f
  | .ok lru =>
    match load lru.heap pointer with
    | .error f => .error f
    | .ok pe =>
      let lru := { lru with CacheSize := wrap64 (lru.CacheSize - pe.bufSize) }
      let lru := { lru with Cache := mapDelete lru.Cache pe.name }
      match storePrev lru.heap pointer none with
      | .error f => .error f
      | .ok h =>
        match storePost h pointer none with
        | .error f => .error f
        | .ok h => .ok (pe.bufSize, { lru with heap := h })

/-- Lines 94-111 of `Read`: `for fsize >= availSize { ... }`. The first
argument bounds the number of passes. -/
def evictLoop : Nat → Int → Int → lruProvider → Except Fault lruProvider
  | fuel, fsize, availSize, lru =>
    if fsize ≥ availSize then
      match fuel with
      | 0 => .error .outOfFuel
      | fuel + 1 =>
        match evictStep lru with
        | .error f => .error f
        | .ok (sz, lru) => evictLoop fuel fsize (wrap64 (availSize + sz)) lru
    else
      .ok lru

/-- Lines 114-129 of `Read`: allocate the new element and link it at the head. -/
def insertHead (lru : lruProvider) (filename : String) (fsize : Int) (content : Bytes) :
    Except Fault lruProvider :=
  let header := lru.Header
  let elem : element :=
    { name := filename, bufSize := fsize, content := content, prevElem := none, postElem := header }
  let addr := lru.heap.length
  let lru := { lru with heap := lru.heap ++ [elem] }
  let lru := { lru with Header := some addr }
  let linked : Except Fault lruProvider :=
    if header = none then
      .ok { lru with Tailer := some addr }
    else
      match storePrev lru.heap header (some addr) with
      | .error f => .error f
      | .ok h => .ok { lru with heap := h }
  match linked with
  | .error f => .error f
  | .ok lru =>
    let lru := { lru with CacheSize := wrap64 (lru.CacheSize + fsize) }
    .ok { lru with Cache := mapSet lru.Cache filename addr }

/-- Lines 85-131 of `Read`: the update made once the content is in hand.
The eviction loop is given `heap.length + 2` passes, more than it makes on a
well-formed cache (`evictLoop_spec`: there it stops or dereferences nil). -/
def update (lru : lruProvider) (filename : String) (content : Bytes) :
    Except Fault ((Bytes × Option String) × lruProvider) :=
  let fsize : Int := content.length
  if fsize > lru.MaxSize then
    .ok ((content, none), lru)
  else
    let evicted : Except Fault lruProvider :=
      if fsize > wrap64 (lru.MaxSize - lru.CacheSize) then
        let availSize := wrap64 (lru.MaxSize - lru.CacheSize)
        evictLoop (lru.heap.length + 2) fsize availSize lru
      else
        .ok lru
    match evicted with
    | .error f => .error f
    | .ok lru =>
      match insertHead lru filename fsize content with
      | .error f => .error f
      | .ok lru => .ok ((content, none), lru)

/-- Go `(*lruProvider).Read`. The result is the pair Go returns (a nil slice
is `[]`, a nil error is `none`) and the cache afterwards. -/
def Read (lru : lruProvider) (st : Storage) (filename : String) :
    Except Fault ((Bytes × Option String) × lruProvider) :=
  match mapGet lru.Cache filename with
  | some item =>
    match promote lru item with
    | .error f => .error f
    | .ok lru =>
      match load lru.heap (some item) with
      | .error f => .error f
      | .ok e => .ok ((e.content, none), lru)
  | none =>
    match st filename with
    | .openErr err => .ok (([], some err), lru)
    | .statErr err => .ok (([], some err), lru)
    | .readErr err => .ok (([], some err), lru)
    | .ok content => update lru filename content

/-- The loop of Go `debug`: `for item = Header; item != Tailer; item = item.postElem`,
collecting the addresses it prints; also returns `item` at loop exit. -/
def walkLoop (h : List element) (tailer : Option Nat) :
    Nat → Option Nat → Except Fault (List Nat × Option Nat)
  | fuel, item =>
    if item ≠ tailer then
      match fuel with
      | 0 => .error .outOfFuel
      | fuel + 1 =>
        match item with
        | none => .error .nilDeref
        | some a =>
          match load h (some a) with
          | .error f => .error f
          | .ok e =>
            match walkLoop h tailer fuel e.postElem with
            | .error f => .error f
            | .ok (acc, last) => .ok (a :: acc, last)
    else
      .ok ([], item)

/-- The walk of Go `debug` from `Header` to `Tailer`: the addresses of the
elements it prints, in order. -/
def walk (lru : lruProvider) : Except Fault (List Nat) :=
  match walkLoop lru.heap lru.Tailer lru.heap.length lru.Header with
  | .error f => .error f
  | .ok (acc, item) =>
    match item with
    | none => .ok acc
    | some a =>
      match load lru.heap (some a) with
      | .error f => .error f
      | .ok _ => .ok (acc ++ [a])

/-- Run `Read` for each name in turn against one storage, stopping at the
first fault. Returns the results in order and the final cache. -/
def ReadAll (st : Storage) :
    lruProvider → List String → Except Fault (List (Bytes × Option String) × lruProvider)
  | lru, [] => .ok ([], lru)
  | lru, x :: xs =>
    match Read lru st x with
    | .error f => .error f
    | .ok (r, lru) =>
      match ReadAll st lru xs with
      | .error f => .error f
      | .ok (rs, lru) => .ok (r :: rs, lru)

/-- A file of `n` zero bytes. -/
def zeros (n : Nat) : Bytes := List.replicate n 0

/-- Storage with the files of the scenarios: `a`, `b`, `c` of the given sizes,
nothing else. -/
def files (l : List (String × Nat)) : Storage := fun name =>
  match l.lookup name with
  | some n => .ok (zeros n)
  | none => .openErr "no such file"

/-- The error a failed fetch carries, if the fetch failed. -/
def FetchResult.err? : FetchResult → Option String
  | .openErr err => some err
  | .statErr err => some err
  | .readErr err => some err
  | .ok _ => none

/-! ## Concrete caches and file systems used in examples -/

deriving instance DecidableEq for Except

/-- An element holding a file of `n` zero bytes. -/
def zeroElem (name : String) (n : Nat) (prev post : Option Nat) : element :=
  { name := name, bufSize := n, content := zeros n, prevElem := prev, postElem := post }

/-- Capacity 100 after `Read(a)` of 40 bytes. -/
def cacheA : lruProvider :=
  { Cache := [("a", 0)], CacheSize := 40, MaxSize := 100, Header := some 0, Tailer := some 0,
    heap := [zeroElem "a" 40 none none] }

/-- Capacity 100 after `Read(a)`, `Read(b)` of 40 bytes each. -/
def cacheBA : lruProvider :=
  { Cache := [("b", 1), ("a", 0)], CacheSize := 80, MaxSize := 100,
    Header := some 1, Tailer := some 0,
    heap := [zeroElem "a" 40 (some 1) none, zeroElem "b" 40 none (some 0)] }

/-- Capacity 100 after `Read(a)`, `Read(b)`, `Read(a)` with files of 40 bytes. -/
def cacheAB : lruProvider :=
  { Cache := [("b", 1), ("a", 0)], CacheSize := 80, MaxSize := 100,
    Header := some 0, Tailer := some 1,
    heap := [zeroElem "a" 40 none (some 1), zeroElem "b" 40 (some 0) none] }

/-- Capacity 100 after `Read(a)`, `Read(b)`, `Read(c)` of 40 bytes each. -/
def cacheCB : lruProvider :=
  { Cache := [("c", 2), ("b", 1)], CacheSize := 80, MaxSize := 100,
    Header := some 2, Tailer := some 1,
    heap := [zeroElem "a" 40 none none, zeroElem "b" 40 (some 2) none,
      zeroElem "c" 40 none (some 1)] }

/-- Capacity 100 after `Read(a)`, `Read(b)` of 40 bytes each and `Read(c)` of 60. -/
def cacheC : lruProvider :=
  { Cache := [("c", 2)], CacheSize := 60, MaxSize := 100,
    Header := some 2, Tailer := some 2,
    heap := [zeroElem "a" 40 none none, zeroElem "b" 40 none none,
      zeroElem "c" 60 none none] }

/-- Capacity 100 after `Read(a)`, `Read(b)`, `Read(a)`, `Read(c)` with `a`, `b` of
30 bytes and `c` of 50. -/
def cacheCA : lruProvider :=
  { Cache := [("c", 2), ("a", 0)], CacheSize := 80, MaxSize := 100,
    Header := some 2, Tailer := some 0,
    heap := [zeroElem "a" 30 (some 2) none, zeroElem "b" 30 none none,
      zeroElem "c" 50 none (some 0)] }

/-- Capacity 50 after `Read(x)` of 10 bytes. -/
def cacheX : lruProvider :=
  { Cache := [("x", 0)], CacheSize := 10, MaxSize := 50, Header := some 0, Tailer := some 0,
    heap := [zeroElem "x" 10 none none] }

/-- Capacity 100 after `Read(a)` of 60 bytes. -/
def cacheA60 : lruProvider :=
  { Cache := [("a", 0)], CacheSize := 60, MaxSize := 100, Header := some 0, Tailer := some 0,
    heap := [zeroElem "a" 60 none none] }

/-- What the locked update of a second miss on `a` (40 bytes) makes of `cacheA`:
the first element for `a` is still on the list, the map points to the second. -/
def cacheDup : lruProvider :=
  { Cache := [("a", 1)], CacheSize := 80, MaxSize := 100, Header := some 1, Tailer := some 0,
    heap := [zeroElem "a" 40 (some 1) none, zeroElem "a" 40 none (some 0)] }

/-! ## The order of mutex and cache accesses in `Read` -/

/-- What `Read` does to the mutex and to the shared cache, in program order. -/
inductive Event where
  /-- Line 48: the lookup `lru.Cache[filename]`. -/
  | lookup
  /-- Lines 49 and 85: `lru.Lock()`. -/
  | lock
  /-- Lines 50 and 86: the deferred `lru.Unlock()`, run when `Read` returns. -/
  | unlock
  /-- Lines 51-66: the test of `Header` and the relinking of `item`. -/
  | relink
  /-- Line 67: the read of `item.content`. -/
  | content
  /-- Lines 69-83: open, stat and read of the file; no access to the cache. -/
  | fetch
  /-- Lines 87-129: size checks, eviction, insertion, accounting, map write. -/
  | update
deriving DecidableEq, Repr

/-- The events that read or write the shared cache. -/
def Event.structural : Event → Bool
  | .lookup => true
  | .relink => true
  | .content => true
  | .update => true
  | .lock => false
  | .unlock => false
  | .fetch => false

/-- The events of one call of `Read`, in the order of the statements of the
source: the lookup of line 48 comes first, then either the locked hit path or
the fetch followed, when it succeeds, by the locked update. -/
def ReadEvents (lru : lruProvider) (st : Storage) (filename : String) : List Event :=
  .lookup ::
    match mapGet lru.Cache filename with
    | some _ => [.lock, .relink, .content, .unlock]
    | none =>
      .fetch ::
        match st filename with
        | .ok _ => [.lock, .update, .unlock]
        | .openErr _ => []
        | .statErr _ => []
        | .readErr _ => []

/-- Whether every structural event of a trace happens while the mutex is held;
the first argument says whether it is held when the trace starts. -/
def lockDiscipline : Bool → List Event → Bool
  | _, [] => true
  | _, .lock :: es => lockDiscipline true es
  | _, .unlock :: es => lockDiscipline false es
  | held, e :: es => (!e.structural || held) && lockDiscipline held es

/-! ## Specification vocabulary -/

/-- The `prevElem` field stored at an address, if the address is in the heap. -/
def pre (h : List element) (a : Nat) : Option (Option Nat) :=
  (h[a]?).map (fun e => e.prevElem)

/-- The `postElem` field stored at an address, if the address is in the heap. -/
def post (h : List element) (a : Nat) : Option (Option Nat) :=
  (h[a]?).map (fun e => e.postElem)

/-- The fields of an element that no statement of the program assigns:
`name`, `bufSize`, `content`. -/
def payload (h : List element) (a : Nat) : Option (String × Int × Bytes) :=
  (h[a]?).map (fun e => (e.name, e.bufSize, e.content))

/-- The `bufSize` stored at an address (0 outside the heap). -/
def sizeAt (h : List element) (a : Nat) : Int :=
  match payload h a with
  | some d => d.2.1
  | none => 0

/-- Head of a list of addresses, or the given pointer when the list is empty. -/
def headOr : List Nat → Option Nat → Option Nat
  | [], n => n
  | a :: _, _ => some a

/-- Last element of a list of addresses, or the given pointer when the list is empty. -/
def lastOr : List Nat → Option Nat → Option Nat
  | [], p => p
  | a :: L, _ => lastOr L (some a)

/-- The `postElem` links run through the list `L` and end in `n`. -/
def Fwd (h : List element) : List Nat → Option Nat → Prop
  | [], _ => True
  | a :: L, n => post h a = some (headOr L n) ∧ Fwd h L n

/-- The `prevElem` links run back through the list `L`, the first one being `p`. -/
def Bwd (h : List element) : Option Nat → List Nat → Prop
  | _, [] => True
  | p, a :: L => pre h a = some p ∧ Bwd h (some a) L

/-- Representation invariant: the cache `s` holds exactly the elements at the
addresses `L`, from most to least recently used. -/
structure Inv (s : lruProvider) (L : List Nat) : Prop where
  nodup : L.Nodup
  valid : ∀ a ∈ L, a < s.heap.length
  fwd : Fwd s.heap L none
  bwd : Bwd s.heap none L
  header : s.Header = L.head?
  tailer : s.Tailer = L.getLast?
  keys : (s.Cache.map Prod.fst).Nodup
  cache : ∀ k a, (k, a) ∈ s.Cache ↔ a ∈ L ∧ ∃ d, payload s.heap a = some d ∧ d.1 = k
  size : s.CacheSize = (L.map (sizeAt s.heap)).sum
  sizes : ∀ a ∈ L, ∃ d, payload s.heap a = some d ∧
    0 ≤ d.2.1 ∧ d.2.1 ≤ s.MaxSize ∧ d.2.1 = d.2.2.length
  bounded : L ≠ [] → s.CacheSize ≤ s.MaxSize
  range : -9223372036854775808 ≤ s.MaxSize ∧ s.MaxSize < 9223372036854775808

/-- The invariants of the data model: some list `L` of addresses is the
eviction list of `s`. Field by field, `Inv s L` says: the list is a doubly
linked list without repetition (`nodup`, `valid`, `fwd`, `bwd`), `Header` and
`Tailer` are its ends, both nil when it is empty (`header`, `tailer`), the
`Cache` map has one key per listed element, the element's name (`keys`,
`cache`), `CacheSize` is the sum of the sizes and at most `MaxSize` (`size`,
`bounded`), every size is the length of the content, not negative and at most
`MaxSize` (`sizes`), and `MaxSize` is an `int64` (`range`). -/
def WellFormed (s : lruProvider) : Prop := ∃ L, Inv s L

/-- The older cache `s` survives in `s'`: same capacity, and every element of
the old heap keeps its name, size and content. -/
structure Extends (s s' : lruProvider) : Prop where
  maxSize : s'.MaxSize = s.MaxSize
  length : s.heap.length ≤ s'.heap.length
  payload : ∀ a, a < s.heap.length → payload s'.heap a = payload s.heap a

/-- States reached from `NewLRUProvider c`, with `c` an `int64`, by calls of
`Read` that return; the file system may change between calls. -/
inductive Reachable (c : Int) : lruProvider → Prop
  | init : -9223372036854775808 ≤ c → c < 9223372036854775808 →
      Reachable c (NewLRUProvider c)
  | read {s s' : lruProvider} {st : Storage} {x : String} {r : Bytes × Option String} :
      Reachable c s → Read s st x = .ok (r, s') → Reachable c s'

/-- States reached from `NewLRUProvider c`, with `c` an `int64`, by calls of
`Read` that return, all against the same file system `st`. -/
inductive ReachableWith (st : Storage) (c : Int) : lruProvider → Prop
  | init : -9223372036854775808 ≤ c → c < 9223372036854775808 →
      ReachableWith st c (NewLRUProvider c)
  | read {s s' : lruProvider} {x : String} {r : Bytes × Option String} :
      ReachableWith st c s → Read s st x = .ok (r, s') → ReachableWith st c s'

/-- The sum of `bufSize` over the entries of the `Cache` map. -/
def cacheBytes (s : lruProvider) : Int :=
  (s.Cache.map (fun kv => sizeAt s.heap kv.2)).sum

/-- What a caller reading straight from the file system would get. -/
def FetchResult.direct : FetchResult → Bytes × Option String
  | .openErr err => ([], some err)
  | .statErr err => ([], some err)
  | .readErr err => ([], some err)
  | .ok content => (content, none)

/-- Every cached element holds what the file system `st` has under its name. -/
def Agrees (st : Storage) (s : lruProvider) (L : List Nat) : Prop :=
  ∀ a ∈ L, ∀ d, payload s.heap a = some d → st d.1 = .ok d.2.2

/-- The sum of `bufSize` over the `k` least recently used elements of the
list `L` (its last `k` elements). -/
def lruBytes (s : lruProvider) (L : List Nat) (k : Nat) : Int :=
  ((L.drop (L.length - k)).map (sizeAt s.heap)).sum

/-! ## Heap lemmas -/

theorem lt_of_payload {h : List element} {a : Nat} {d : String × Int × Bytes}
    (hd : payload h a = some d) : a < h.length := by
  unfold payload at hd
  by_contra hlt
  rw [List.getElem?_eq_none (by omega)] at hd
  simp at hd

theorem payload_of_lt {h : List element} {a : Nat} (ha : a < h.length) :
    ∃ d, payload h a = some d := by
  unfold payload
  rw [List.getElem?_eq_getElem ha]
  exact ⟨_, rfl⟩

theorem load_ok {h : List element} {a : Nat} (ha : a < h.length) :
    ∃ e, h[a]? = some e ∧ load h (some a) = .ok e := by
  refine ⟨h[a], List.getElem?_eq_getElem ha, ?_⟩
  simp [load, List.getElem?_eq_getElem ha]

theorem storePrev_ok {h : List element} {a : Nat} (v : Option Nat) (ha : a < h.length) :
    ∃ h', storePrev h (some a) v = .ok h' ∧ h'.length = h.length ∧
      (∀ b, payload h' b = payload h b) ∧ (∀ b, post h' b = post h b) ∧
      (∀ b, pre h' b = if b = a then some v else pre h b) := by
  refine ⟨h.set a { h[a] with prevElem := v }, ?_, by simp, ?_, ?_, ?_⟩
  · simp [storePrev, List.getElem?_eq_getElem ha]
  · intro b
    by_cases hb : a = b
    · subst hb; simp [payload, List.getElem?_set, ha, List.getElem?_eq_getElem ha]
    · simp [payload, List.getElem?_set, hb]
  · intro b
    by_cases hb : a = b
    · subst hb; simp [post, List.getElem?_set, ha, List.getElem?_eq_getElem ha]
    · simp [post, List.getElem?_set, hb]
  · intro b
    by_cases hb : a = b
    · subst hb; simp [pre, List.getElem?_set, ha]
    · have hb' : ¬ b = a := fun e => hb e.symm
      simp [pre, List.getElem?_set, hb, hb']

theorem storePost_ok {h : List element} {a : Nat} (v : Option Nat) (ha : a < h.length) :
    ∃ h', storePost h (some a) v = .ok h' ∧ h'.length = h.length ∧
      (∀ b, payload h' b = payload h b) ∧ (∀ b, pre h' b = pre h b) ∧
      (∀ b, post h' b = if b = a then some v else post h b) := by
  refine ⟨h.set a { h[a] with postElem := v }, ?_, by simp, ?_, ?_, ?_⟩
  · simp [storePost, List.getElem?_eq_getElem ha]
  · intro b
    by_cases hb : a = b
    · subst hb; simp [payload, List.getElem?_set, ha, List.getElem?_eq_getElem ha]
    · simp [payload, List.getElem?_set, hb]
  · intro b
    by_cases hb : a = b
    · subst hb; simp [pre, List.getElem?_set, ha, List.getElem?_eq_getElem ha]
    · simp [pre, List.getElem?_set, hb]
  · intro b
    by_cases hb : a = b
    · subst hb; simp [post, List.getElem?_set, ha]
    · have hb' : ¬ b = a := fun e => hb e.symm
      simp [post, List.getElem?_set, hb, hb']

/-! ## Lists of addresses -/

theorem headOr_none (L : List Nat) : headOr L none = L.head? := by
  cases L <;> rfl

theorem headOr_append (A B : List Nat) (n : Option Nat) :
    headOr (A ++ B) n = headOr A (headOr B n) := by
  cases A <;> rfl

theorem lastOr_concat (A : List Nat) (t : Nat) (p : Option Nat) :
    lastOr (A ++ [t]) p = some t := by
  induction A generalizing p with
  | nil => rfl
  | cons a A ih => exact ih (some a)

theorem lastOr_none (L : List Nat) : lastOr L none = L.getLast? := by
  rcases List.eq_nil_or_concat L with rfl | ⟨M, t, rfl⟩
  · rfl
  · simp [lastOr_concat]

theorem Fwd_congr {h h' : List element} {L : List Nat} {n : Option Nat}
    (hp : ∀ a ∈ L, post h' a = post h a) (hf : Fwd h L n) : Fwd h' L n := by
  induction L with
  | nil => trivial
  | cons a L ih =>
    refine ⟨?_, ih (fun b hb => hp b (List.mem_cons_of_mem _ hb)) hf.2⟩
    rw [hp a (List.mem_cons_self _ _)]
    exact hf.1

theorem Bwd_congr {h h' : List element} {L : List Nat} {p : Option Nat}
    (hp : ∀ a ∈ L, pre h' a = pre h a) (hb : Bwd h p L) : Bwd h' p L := by
  induction L generalizing p with
  | nil => trivial
  | cons a L ih =>
    refine ⟨?_, ih (fun b hb => hp b (List.mem_cons_of_mem _ hb)) hb.2⟩
    rw [hp a (List.mem_cons_self _ _)]
    exact hb.1

theorem Fwd_append {h : List element} {A B : List Nat} {n : Option Nat} :
    Fwd h (A ++ B) n ↔ Fwd h A (headOr B n) ∧ Fwd h B n := by
  induction A with
  | nil => simp [Fwd]
  | cons a A ih =>
    show (post h a = some (headOr (A ++ B) n) ∧ Fwd h (A ++ B) n) ↔
      (post h a = some (headOr A (headOr B n)) ∧ Fwd h A (headOr B n)) ∧ Fwd h B n
    rw [ih, headOr_append]
    tauto

theorem Bwd_append {h : List element} {A B : List Nat} {p : Option Nat} :
    Bwd h p (A ++ B) ↔ Bwd h p A ∧ Bwd h (lastOr A p) B := by
  induction A generalizing p with
  | nil => simp [Bwd, lastOr]
  | cons a A ih =>
    show (pre h a = some p ∧ Bwd h (some a) (A ++ B)) ↔
      (pre h a = some p ∧ Bwd h (some a) A) ∧ Bwd h (lastOr A (some a)) B
    rw [ih]
    tauto

theorem length_le_of_nodup {L : List Nat} {n : Nat} (hn : L.Nodup) (hv : ∀ a ∈ L, a < n) :
    L.length ≤ n := by
  have hsub : L ⊆ List.range n := fun a ha => List.mem_range.2 (hv a ha)
  simpa using (List.subperm_of_subset hn hsub).length_le

/-! ## The map -/

theorem mem_mapDelete {m : List (String × Nat)} {k k' : String} {a : Nat} :
    (k', a) ∈ mapDelete m k ↔ (k', a) ∈ m ∧ k' ≠ k := by
  induction m with
  | nil => simp [mapDelete]
  | cons kv m ih =>
    obtain ⟨k0, v0⟩ := kv
    unfold mapDelete
    by_cases hk : k0 = k
    · simp only [hk, if_true, ih, List.mem_cons, Prod.mk.injEq]
      constructor
      · rintro ⟨h1, h2⟩; exact ⟨Or.inr h1, h2⟩
      · rintro ⟨(⟨h1, _⟩ | h1), h2⟩
        · exact absurd h1 h2
        · exact ⟨h1, h2⟩
    · simp only [hk, if_false, List.mem_cons, ih, Prod.mk.injEq]
      constructor
      · rintro (⟨h1, h2⟩ | ⟨h1, h2⟩)
        · exact ⟨Or.inl ⟨h1, h2⟩, by rw [h1]; exact hk⟩
        · exact ⟨Or.inr h1, h2⟩
      · rintro ⟨(⟨h1, h2⟩ | h1), h2'⟩
        · exact Or.inl ⟨h1, h2⟩
        · exact Or.inr ⟨h1, h2'⟩

theorem mapDelete_sublist (m : List (String × Nat)) (k : String) :
    (mapDelete m k).Sublist m := by
  induction m with
  | nil => simp [mapDelete]
  | cons kv m ih =>
    obtain ⟨k0, v0⟩ := kv
    unfold mapDelete
    by_cases hk : k0 = k
    · simp only [hk, if_true]; exact ih.cons _
    · simp only [hk, if_false]; exact ih.cons₂ _

theorem keys_mapDelete {m : List (String × Nat)} (k : String)
    (hn : (m.map Prod.fst).Nodup) : ((mapDelete m k).map Prod.fst).Nodup :=
  hn.sublist ((mapDelete_sublist m k).map _)

theorem mapGet_eq_none {m : List (String × Nat)} {k : String} :
    mapGet m k = none ↔ ∀ a, (k, a) ∉ m := by
  induction m with
  | nil => simp [mapGet]
  | cons kv m ih =>
    obtain ⟨k0, v0⟩ := kv
    unfold mapGet
    by_cases hk : k0 = k
    · subst hk
      simp only [if_true, List.mem_cons, Prod.mk.injEq, true_and, not_or]
      constructor
      · intro h; cases h
      · intro h; exact absurd rfl (h v0).1
    · have hk' : ¬ k = k0 := fun e => hk e.symm
      simp [hk, hk', ih]

theorem mapGet_eq_some {m : List (String × Nat)} {k : String} {a : Nat}
    (hn : (m.map Prod.fst).Nodup) : mapGet m k = some a ↔ (k, a) ∈ m := by
  induction m with
  | nil => simp [mapGet]
  | cons kv m ih =>
    obtain ⟨k0, v0⟩ := kv
    simp only [List.map_cons, List.nodup_cons, List.mem_map, not_exists, not_and] at hn
    unfold mapGet
    by_cases hk : k0 = k
    · subst hk
      simp only [if_true, List.mem_cons, Prod.mk.injEq, true_and, Option.some.injEq]
      constructor
      · intro h; exact Or.inl h.symm
      · rintro (h | h)
        · exact h.symm
        · exact absurd rfl (hn.1 (k0, a) h)
    · have hk' : ¬ k = k0 := fun e => hk e.symm
      simp [hk, hk', ih hn.2]

theorem mapGet_mapDelete_none {m : List (String × Nat)} {k x : String}
    (h : mapGet m x = none) : mapGet (mapDelete m k) x = none := by
  rw [mapGet_eq_none] at h ⊢
  intro a ha
  exact h a (mem_mapDelete.1 ha).1

/-! ## Eviction -/

theorem wrap64_eq {x : Int} (h1 : -9223372036854775808 ≤ x) (h2 : x < 9223372036854775808) :
    wrap64 x = x := by
  unfold wrap64
  omega

theorem sizeAt_nonneg {s : lruProvider} {L : List Nat} (hI : Inv s L) {a : Nat} (ha : a ∈ L) :
    0 ≤ sizeAt s.heap a := by
  obtain ⟨d, hd, h0, _⟩ := hI.sizes a ha
  simp [sizeAt, hd, h0]

theorem sum_sizeAt_nonneg {s : lruProvider} {L : List Nat} (hI : Inv s L) (M : List Nat)
    (hM : ∀ a ∈ M, a ∈ L) : 0 ≤ (M.map (sizeAt s.heap)).sum := by
  apply List.sum_nonneg
  intro x hx
  obtain ⟨a, ha, rfl⟩ := List.mem_map.1 hx
  exact sizeAt_nonneg hI (hM a ha)

theorem sizeAt_congr {h h' : List element} {a : Nat} (hp : payload h' a = payload h a) :
    sizeAt h' a = sizeAt h a := by
  simp [sizeAt, hp]

theorem unlinkTail_spec {s : lruProvider} {M : List Nat} {t : Nat} (hI : Inv s (M ++ [t])) :
    ∃ s1, unlinkTail s = .ok s1 ∧ s1.heap.length = s.heap.length ∧
      (∀ b, payload s1.heap b = payload s.heap b) ∧ (∀ b, pre s1.heap b = pre s.heap b) ∧
      Fwd s1.heap M none ∧ s1.Header = M.head? ∧ s1.Tailer = M.getLast? ∧
      s1.Cache = s.Cache ∧ s1.CacheSize = s.CacheSize ∧ s1.MaxSize = s.MaxSize := by
  have hT : s.Tailer = some t := by rw [hI.tailer]; simp
  have hnd := List.nodup_append.1 hI.nodup
  have htM : t ∉ M := fun h => hnd.2.2 h (List.mem_singleton_self t)
  have htv : t < s.heap.length := hI.valid t (by simp)
  rcases List.eq_nil_or_concat M with rfl | ⟨M', y, hM⟩
  · have hH : s.Header = some t := by rw [hI.header]; rfl
    refine ⟨{ s with Header := none, Tailer := none }, ?_, rfl, fun _ => rfl, fun _ => rfl,
      trivial, rfl, rfl, rfl, rfl, rfl⟩
    simp [unlinkTail, hT, hH]
  · rw [List.concat_eq_append] at hM
    subst hM
    have hH : s.Header = (M' ++ [y]).head? := by
      rw [hI.header]; cases M' <;> rfl
    have hH' : ¬ (some t = s.Header) := by
      intro h
      rw [hH] at h
      exact htM (List.mem_of_mem_head? h.symm)
    have hyt : y ≠ t := by
      intro h; apply htM; simp [h]
    have hyv : y < s.heap.length := hI.valid y (by simp)
    obtain ⟨e, he, hload⟩ := load_ok htv
    have hpre : pre s.heap t = some (some y) := by
      have := (Bwd_append.1 hI.bwd).2.1
      rwa [lastOr_concat] at this
    have hprev : e.prevElem = some y := by
      simpa [pre, he] using hpre
    obtain ⟨h1, hs1, hlen1, hpay1, hpre1, hpost1⟩ := storePost_ok none hyv
    have hfM : Fwd s.heap (M' ++ [y]) (some t) := (Fwd_append.1 hI.fwd).1
    have hfM' : Fwd s.heap M' (some y) := (Fwd_append.1 hfM).1
    refine ⟨{ s with heap := h1, Tailer := some y }, ?_, hlen1, hpay1, hpre1, ?_, hH, ?_,
      rfl, rfl, rfl⟩
    · simp [unlinkTail, hT, hH', hload, hprev, hs1]
    · refine Fwd_append.2 ⟨Fwd_congr (fun a ha => ?_) hfM', ?_⟩
      · have hay : a ≠ y := by
          intro h
          exact (List.nodup_append.1 hnd.1).2.2 ha (by simp [h])
        show post h1 a = post s.heap a
        rw [hpost1, if_neg hay]
      · refine ⟨?_, trivial⟩
        show post h1 y = some (headOr [] none)
        rw [hpost1, if_pos rfl]; rfl
    · show some y = (M' ++ [y]).getLast?
      simp

theorem map_sizeAt_congr {h h' : List element} {M : List Nat}
    (hp : ∀ a ∈ M, payload h' a = payload h a) : M.map (sizeAt h') = M.map (sizeAt h) :=
  List.map_congr_left (fun a ha => sizeAt_congr (hp a ha))

theorem keys_unique {m : List (String × Nat)} {k : String} {a b : Nat}
    (hn : (m.map Prod.fst).Nodup) (ha : (k, a) ∈ m) (hb : (k, b) ∈ m) : a = b := by
  have h1 := (mapGet_eq_some hn).2 ha
  have h2 := (mapGet_eq_some hn).2 hb
  rw [h1] at h2
  exact Option.some.inj h2

theorem evictStep_spec {s : lruProvider} {M : List Nat} {t : Nat} (hI : Inv s (M ++ [t])) :
    ∃ s', evictStep s = .ok (sizeAt s.heap t, s') ∧ Inv s' M ∧ Extends s s' ∧
      s'.heap.length = s.heap.length ∧ s'.CacheSize = s.CacheSize - sizeAt s.heap t ∧
      ∃ d, payload s.heap t = some d ∧ s'.Cache = mapDelete s.Cache d.1 := by
  have hT : s.Tailer = some t := by rw [hI.tailer]; simp
  have hnd := List.nodup_append.1 hI.nodup
  have htM : t ∉ M := fun h => hnd.2.2 h (List.mem_singleton_self t)
  have htv : t < s.heap.length := hI.valid t (by simp)
  obtain ⟨s1, hu, hlen1, hpay1, hpre1, hfwd1, hH1, hT1, hC1, hCS1, hMS1⟩ := unlinkTail_spec hI
  have htv1 : t < s1.heap.length := by omega
  obtain ⟨e1, he1, hload1⟩ := load_ok htv1
  obtain ⟨h2, hs2, hlen2, hpay2, hpost2, hpre2⟩ := storePrev_ok none htv1
  have htv2 : t < h2.length := by omega
  obtain ⟨h3, hs3, hlen3, hpay3, hpre3, hpost3⟩ := storePost_ok none htv2
  obtain ⟨d, hd, hd0, hdM, hdlen⟩ := hI.sizes t (by simp)
  have hpay : ∀ b, payload h3 b = payload s.heap b := fun b => by rw [hpay3, hpay2, hpay1]
  have he1d : (e1.name, e1.bufSize, e1.content) = d := by
    have := hpay1 t
    rw [hd] at this
    simpa [payload, he1] using this
  have hname : e1.name = d.1 := by rw [← he1d]
  have hsz : e1.bufSize = d.2.1 := by rw [← he1d]
  have hszAt : sizeAt s.heap t = d.2.1 := by simp [sizeAt, hd]
  have hsum : s.CacheSize = (M.map (sizeAt s.heap)).sum + d.2.1 := by
    rw [hI.size]; simp [hszAt]
  have hsumM : 0 ≤ (M.map (sizeAt s.heap)).sum :=
    sum_sizeAt_nonneg hI M (fun a ha => List.mem_append_left _ ha)
  have hbd : s.CacheSize ≤ s.MaxSize := hI.bounded (by simp)
  have hr := hI.range
  have hw : wrap64 (s.CacheSize - d.2.1) = s.CacheSize - d.2.1 :=
    wrap64_eq (by omega) (by omega)
  refine ⟨{ s1 with CacheSize := wrap64 (s1.CacheSize - e1.bufSize),
                    Cache := mapDelete s1.Cache e1.name, heap := h3 }, ?_, ?_, ?_, ?_, ?_, ?_⟩
  · simp [evictStep, hT, hu, hload1, hs2, hs3, hsz, hszAt]
  · refine
      { nodup := hnd.1
        valid := fun a ha => ?_
        fwd := Fwd_congr (fun a ha => ?_) hfwd1
        bwd := Bwd_congr (fun a ha => ?_) (Bwd_append.1 hI.bwd).1
        header := hH1
        tailer := hT1
        keys := ?_
        cache := fun k a => ?_
        size := ?_
        sizes := fun a ha => ?_
        bounded := fun _ => ?_
        range := ?_ }
    · have := hI.valid a (List.mem_append_left _ ha)
      show a < h3.length
      omega
    · have hat : a ≠ t := fun h => htM (h ▸ ha)
      show post h3 a = post s1.heap a
      rw [hpost3, if_neg hat, hpost2]
    · have hat : a ≠ t := fun h => htM (h ▸ ha)
      show pre h3 a = pre s.heap a
      rw [hpre3, hpre2, if_neg hat, hpre1]
    · show ((mapDelete s1.Cache e1.name).map Prod.fst).Nodup
      rw [hC1]
      exact keys_mapDelete _ hI.keys
    · show (k, a) ∈ mapDelete s1.Cache e1.name ↔ a ∈ M ∧ ∃ d', payload h3 a = some d' ∧ d'.1 = k
      rw [hC1, hname, mem_mapDelete, hI.cache, hpay]
      constructor
      · rintro ⟨⟨ha, d', hd', hk⟩, hne⟩
        refine ⟨?_, d', hd', hk⟩
        rcases List.mem_append.1 ha with ha | ha
        · exact ha
        · exfalso
          rw [List.mem_singleton] at ha
          subst ha
          rw [hd] at hd'
          cases hd'
          exact hne hk.symm
      · rintro ⟨ha, d', hd', hk⟩
        refine ⟨⟨List.mem_append_left _ ha, d', hd', hk⟩, ?_⟩
        intro hkd
        have h1 : (k, a) ∈ s.Cache :=
          (hI.cache k a).2 ⟨List.mem_append_left _ ha, d', hd', hk⟩
        have h2 : (k, t) ∈ s.Cache := (hI.cache k t).2 ⟨by simp, d, hd, hkd.symm⟩
        have := keys_unique hI.keys h1 h2
        exact htM (this ▸ ha)
    · show wrap64 (s1.CacheSize - e1.bufSize) = (M.map (sizeAt h3)).sum
      rw [hCS1, hsz, hw, map_sizeAt_congr (fun a _ => hpay a), hsum]
      ring
    · obtain ⟨d', hd', h⟩ := hI.sizes a (List.mem_append_left _ ha)
      refine ⟨d', ?_, ?_⟩
      · show payload h3 a = some d'
        rw [hpay, hd']
      · show 0 ≤ d'.2.1 ∧ d'.2.1 ≤ s1.MaxSize ∧ d'.2.1 = d'.2.2.length
        rw [hMS1]; exact h
    · show wrap64 (s1.CacheSize - e1.bufSize) ≤ s1.MaxSize
      rw [hCS1, hsz, hw, hMS1]
      omega
    · show -9223372036854775808 ≤ s1.MaxSize ∧ s1.MaxSize < 9223372036854775808
      rw [hMS1]; exact hr
  · exact ⟨hMS1, by show s.heap.length ≤ h3.length; omega, fun a _ => hpay a⟩
  · show h3.length = s.heap.length
    omega
  · show wrap64 (s1.CacheSize - e1.bufSize) = s.CacheSize - sizeAt s.heap t
    rw [hCS1, hsz, hw, hszAt]
  · exact ⟨d, hd, by show mapDelete s1.Cache e1.name = _; rw [hC1, hname]⟩

theorem evictStep_nil {s : lruProvider} (hI : Inv s []) :
    evictStep s = .error .nilDeref := by
  have hT : s.Tailer = none := hI.tailer
  have hH : s.Header = none := hI.header
  simp [evictStep, unlinkTail, hT, hH, load]

theorem Extends.refl (s : lruProvider) : Extends s s :=
  ⟨rfl, le_refl _, fun _ _ => rfl⟩

theorem Extends.trans {s s1 s2 : lruProvider} (h1 : Extends s s1) (h2 : Extends s1 s2) :
    Extends s s2 :=
  ⟨h2.maxSize.trans h1.maxSize, le_trans h1.length h2.length, fun a ha => by
    rw [h2.payload a (lt_of_lt_of_le ha h1.length), h1.payload a ha]⟩

theorem Extends.map_sizeAt {s s' : lruProvider} (he : Extends s s') {M : List Nat}
    (hv : ∀ a ∈ M, a < s.heap.length) : M.map (sizeAt s'.heap) = M.map (sizeAt s.heap) :=
  map_sizeAt_congr (fun a ha => he.payload a (hv a ha))

/-- The eviction loop on a well-formed cache: either it stops after taking a
suffix `E` of the list, the last one taken being needed by the loop test, or it
runs off the empty list, which happens only when `fsize` is at least `MaxSize`. -/
theorem evictLoop_spec (fsize : Int) :
    ∀ (fuel : Nat) (L : List Nat) (s : lruProvider) (avail : Int), Inv s L →
      avail = s.MaxSize - s.CacheSize → L.length + 1 ≤ fuel →
      (∃ s' L' E, L = L' ++ E ∧ evictLoop fuel fsize avail s = .ok s' ∧ Inv s' L' ∧
          Extends s s' ∧ s'.heap.length = s.heap.length ∧
          s'.CacheSize = s.CacheSize - (E.map (sizeAt s.heap)).sum ∧
          fsize < s.MaxSize - s'.CacheSize ∧
          (∀ a E2, E = a :: E2 →
            s.MaxSize - s.CacheSize + (E2.map (sizeAt s.heap)).sum ≤ fsize) ∧
          (∀ x, mapGet s.Cache x = none → mapGet s'.Cache x = none)) ∨
        (evictLoop fuel fsize avail s = .error .nilDeref ∧ s.MaxSize ≤ fsize) := by
  intro fuel
  induction fuel with
  | zero => intro L s avail _ _ hf; omega
  | succ fuel ih =>
    intro L s avail hI hav hf
    by_cases hge : fsize ≥ avail
    · rcases List.eq_nil_or_concat L with rfl | ⟨M, t, hM⟩
      · right
        have h0 : s.CacheSize = 0 := by rw [hI.size]; rfl
        refine ⟨?_, by omega⟩
        unfold evictLoop
        simp [hge, evictStep_nil hI]
      · rw [List.concat_eq_append] at hM
        subst hM
        obtain ⟨s1, hstep, hI1, hE1, hlen1, hCS1, d, hd, hC1⟩ := evictStep_spec hI
        have hszAt : sizeAt s.heap t = d.2.1 := by simp [sizeAt, hd]
        obtain ⟨_, _, hd0, hdM, _⟩ := hI.sizes t (by simp)
        have hd' : payload s.heap t = some d := hd
        have hsumM : 0 ≤ (M.map (sizeAt s.heap)).sum :=
          sum_sizeAt_nonneg hI M (fun a ha => List.mem_append_left _ ha)
        have hnn : 0 ≤ sizeAt s.heap t := sizeAt_nonneg hI (by simp)
        have hsum : s.CacheSize = (M.map (sizeAt s.heap)).sum + sizeAt s.heap t := by
          rw [hI.size]; simp
        have hbd : s.CacheSize ≤ s.MaxSize := hI.bounded (by simp)
        have hr := hI.range
        have hw : wrap64 (avail + sizeAt s.heap t) = s1.MaxSize - s1.CacheSize := by
          rw [wrap64_eq (by omega) (by omega), hE1.maxSize, hCS1, hav]
          ring
        have hloop : evictLoop (fuel + 1) fsize avail s =
            evictLoop fuel fsize (s1.MaxSize - s1.CacheSize) s1 := by
          rw [evictLoop]
          simp only [hge, if_true, hstep, hw]
        have hvM : ∀ a ∈ M, a < s.heap.length :=
          fun a ha => hI.valid a (List.mem_append_left _ ha)
        have hlenM : M.length + 1 ≤ fuel := by
          simp only [List.length_append, List.length_singleton] at hf
          omega
        rcases ih M s1 _ hI1 rfl hlenM with
          ⟨s', L', E', hL, hres, hI', hE', hlen', hCS', hlt, hmin, hget⟩ | ⟨hres, hle⟩
        · left
          have hvE : ∀ a ∈ E', a < s.heap.length :=
            fun a ha => hvM a (hL ▸ List.mem_append_right _ ha)
          refine ⟨s', L', E' ++ [t], by rw [hL, List.append_assoc], by rw [hloop, hres], hI',
            hE1.trans hE', by omega, ?_, ?_, ?_, ?_⟩
          · rw [hCS', hCS1, hE1.map_sizeAt hvE]
            simp only [List.map_append, List.sum_append, List.map_cons, List.map_nil,
              List.sum_cons, List.sum_nil]
            ring
          · rw [← hE1.maxSize]; exact hlt
          · intro a E2 hE
            rcases E' with _ | ⟨b, E''⟩
            · simp only [List.nil_append, List.cons.injEq] at hE
              obtain ⟨_, rfl⟩ := hE
              simp only [List.map_nil, List.sum_nil]
              omega
            · simp only [List.cons_append, List.cons.injEq] at hE
              obtain ⟨rfl, rfl⟩ := hE
              have := hmin b E'' rfl
              have hvE'' : ∀ a ∈ E'', a < s.heap.length :=
                fun a ha => hvE a (List.mem_cons_of_mem _ ha)
              rw [hE1.map_sizeAt hvE'', hE1.maxSize, hCS1] at this
              simp only [List.map_append, List.sum_append, List.map_cons, List.map_nil,
                List.sum_cons, List.sum_nil]
              omega
          · intro x hx
            apply hget
            rw [hC1]
            exact mapGet_mapDelete_none hx
        · right
          exact ⟨by rw [hloop, hres], by rw [← hE1.maxSize]; exact hle⟩
    · left
      refine ⟨s, L, [], by simp, ?_, hI, Extends.refl s, rfl, by simp, by omega, ?_, fun _ h => h⟩
      · rw [evictLoop]
        simp only [hge, if_false]
      · intro a E2 h; cases h

/-! ## Insertion -/

theorem CacheSize_nonneg {s : lruProvider} {L : List Nat} (hI : Inv s L) : 0 ≤ s.CacheSize := by
  rw [hI.size]
  exact sum_sizeAt_nonneg hI L (fun _ h => h)

theorem Inv_cons {s s' : lruProvider} {L : List Nat} (hI : Inv s L) {x : String}
    {content : Bytes}
    (hmiss : mapGet s.Cache x = none)
    (hfit : (content.length : Int) ≤ s.MaxSize - s.CacheSize)
    (hlen : s'.heap.length = s.heap.length + 1)
    (hpay : ∀ a, a < s.heap.length → payload s'.heap a = payload s.heap a)
    (hnew : payload s'.heap s.heap.length = some (x, (content.length : Int), content))
    (hMS : s'.MaxSize = s.MaxSize) (hCS : s'.CacheSize = s.CacheSize + content.length)
    (hC : s'.Cache = mapSet s.Cache x s.heap.length)
    (hfwd : Fwd s'.heap (s.heap.length :: L) none)
    (hbwd : Bwd s'.heap none (s.heap.length :: L))
    (hH : s'.Header = some s.heap.length)
    (hT : s'.Tailer = (s.heap.length :: L).getLast?) :
    Inv s' (s.heap.length :: L) := by
  have hnL : s.heap.length ∉ L := fun h => lt_irrefl _ (hI.valid _ h)
  have h0 := CacheSize_nonneg hI
  have hlen0 : (0 : Int) ≤ content.length := Int.natCast_nonneg _
  refine
    { nodup := List.nodup_cons.2 ⟨hnL, hI.nodup⟩
      valid := fun a ha => ?_
      fwd := hfwd
      bwd := hbwd
      header := hH
      tailer := hT
      keys := ?_
      cache := fun k a => ?_
      size := ?_
      sizes := fun a ha => ?_
      bounded := fun _ => ?_
      range := hMS ▸ hI.range }
  · rcases List.mem_cons.1 ha with rfl | ha
    · omega
    · have := hI.valid a ha; omega
  · rw [hC]
    show (x :: (mapDelete s.Cache x).map Prod.fst).Nodup
    refine List.nodup_cons.2 ⟨?_, keys_mapDelete _ hI.keys⟩
    intro hx
    obtain ⟨⟨k, a⟩, hka, rfl⟩ := List.mem_map.1 hx
    exact (mem_mapDelete.1 hka).2 rfl
  · rw [hC]
    show (k, a) ∈ (x, s.heap.length) :: mapDelete s.Cache x ↔ _
    rw [List.mem_cons, mem_mapDelete, hI.cache]
    constructor
    · rintro (h | ⟨⟨ha, d, hd, hk⟩, _⟩)
      · cases h
        exact ⟨List.mem_cons_self _ _, _, hnew, rfl⟩
      · exact ⟨List.mem_cons_of_mem _ ha, d, by rw [hpay a (hI.valid a ha)]; exact hd, hk⟩
    · rintro ⟨ha, d, hd, hk⟩
      rcases List.mem_cons.1 ha with rfl | ha
      · left
        rw [hnew] at hd
        cases hd
        rw [← hk]
      · right
        rw [hpay a (hI.valid a ha)] at hd
        refine ⟨⟨ha, d, hd, hk⟩, ?_⟩
        intro hkx
        exact mapGet_eq_none.1 hmiss a ((hI.cache x a).2 ⟨ha, d, hd, hk.trans hkx⟩)
  · rw [hCS, hI.size]
    have : sizeAt s'.heap s.heap.length = content.length := by simp [sizeAt, hnew]
    rw [List.map_cons, List.sum_cons, this,
      map_sizeAt_congr (fun a ha => hpay a (hI.valid a ha))]
    ring
  · rcases List.mem_cons.1 ha with rfl | ha
    · exact ⟨_, hnew, hlen0, by rw [hMS]; show (content.length : Int) ≤ _; omega, rfl⟩
    · obtain ⟨d, hd, h⟩ := hI.sizes a ha
      exact ⟨d, by rw [hpay a (hI.valid a ha)]; exact hd, by rw [hMS]; exact h⟩
  · rw [hCS, hMS]; omega

theorem insertHead_spec {s : lruProvider} {L : List Nat} (hI : Inv s L) {x : String}
    {content : Bytes} (hmiss : mapGet s.Cache x = none)
    (hfit : (content.length : Int) ≤ s.MaxSize - s.CacheSize) :
    ∃ s', insertHead s x content.length content = .ok s' ∧ Inv s' (s.heap.length :: L) ∧
      Extends s s' ∧ s'.heap.length = s.heap.length + 1 ∧
      payload s'.heap s.heap.length = some (x, (content.length : Int), content) ∧
      s'.CacheSize = s.CacheSize + content.length ∧
      s'.Cache = mapSet s.Cache x s.heap.length := by
  have h0 := CacheSize_nonneg hI
  have hlen0 : (0 : Int) ≤ content.length := Int.natCast_nonneg _
  have hr := hI.range
  have hw : wrap64 (s.CacheSize + content.length) = s.CacheSize + content.length :=
    wrap64_eq (by omega) (by omega)
  have hpay0 : ∀ (e : element) (a : Nat), a < s.heap.length →
      payload (s.heap ++ [e]) a = payload s.heap a := fun e a ha => by
    simp [payload, List.getElem?_append_left ha]
  have hpre0 : ∀ (e : element) (a : Nat), a < s.heap.length →
      pre (s.heap ++ [e]) a = pre s.heap a := fun e a ha => by
    simp [pre, List.getElem?_append_left ha]
  have hpost0 : ∀ (e : element) (a : Nat), a < s.heap.length →
      post (s.heap ++ [e]) a = post s.heap a := fun e a ha => by
    simp [post, List.getElem?_append_left ha]
  rcases L with _ | ⟨a0, L'⟩
  · have hH : s.Header = none := hI.header
    let s' : lruProvider :=
      { s with heap := s.heap ++ [⟨x, content.length, content, none, none⟩],
               Header := some s.heap.length, Tailer := some s.heap.length,
               CacheSize := wrap64 (s.CacheSize + content.length),
               Cache := mapSet s.Cache x s.heap.length }
    have hnew : payload s'.heap s.heap.length = some (x, (content.length : Int), content) := by
      simp [s', payload]
    have hI' : Inv s' (s.heap.length :: []) := by
      refine Inv_cons hI hmiss hfit (by simp [s']) (fun a ha => hpay0 _ a ha) hnew rfl hw rfl
        ?_ ?_ rfl rfl
      · exact ⟨by simp [s', post, headOr], trivial⟩
      · exact ⟨by simp [s', pre], trivial⟩
    refine ⟨s', ?_, hI', ⟨rfl, by simp [s'], fun a ha => hpay0 _ a ha⟩, by simp [s'], hnew,
      hw, rfl⟩
    simp [insertHead, hH, s']
  · have hH : s.Header = some a0 := hI.header
    have ha0 : a0 < s.heap.length := hI.valid a0 (List.mem_cons_self _ _)
    have ha0' : a0 < (s.heap ++ [(⟨x, content.length, content, none, some a0⟩ : element)]).length := by
      simp; omega
    obtain ⟨h1, hs1, hlen1, hpay1, hpost1, hpre1⟩ := storePrev_ok (some s.heap.length) ha0'
    let s' : lruProvider :=
      { s with heap := h1, Header := some s.heap.length,
               CacheSize := wrap64 (s.CacheSize + content.length),
               Cache := mapSet s.Cache x s.heap.length }
    have hne : s.heap.length ≠ a0 := by omega
    have hnd := List.nodup_cons.1 hI.nodup
    have hnew : payload s'.heap s.heap.length = some (x, (content.length : Int), content) := by
      show payload h1 _ = _
      rw [hpay1]; simp [payload]
    have hpay : ∀ a, a < s.heap.length → payload s'.heap a = payload s.heap a := fun a ha => by
      show payload h1 _ = _
      rw [hpay1, hpay0 _ a ha]
    have hI' : Inv s' (s.heap.length :: a0 :: L') := by
      refine Inv_cons hI hmiss hfit (by show h1.length = _; rw [hlen1]; simp) hpay hnew rfl hw
        rfl ?_ ?_ rfl ?_
      · refine ⟨?_, Fwd_congr (fun a ha => ?_) hI.fwd⟩
        · show post h1 _ = _
          rw [hpost1]; simp [post, headOr]
        · show post h1 a = post s.heap a
          rw [hpost1, hpost0 _ a (hI.valid a ha)]
      · refine ⟨?_, ?_, Bwd_congr (fun a ha => ?_) hI.bwd.2⟩
        · show pre h1 _ = _
          rw [hpre1, if_neg hne]; simp [pre]
        · show pre h1 a0 = _
          rw [hpre1, if_pos rfl]
        · have haa : a ≠ a0 := fun h => hnd.1 (h ▸ ha)
          show pre h1 a = pre s.heap a
          rw [hpre1, if_neg haa, hpre0 _ a (hI.valid a (List.mem_cons_of_mem _ ha))]
      · show s.Tailer = _
        rw [hI.tailer]; rfl
    refine ⟨s', ?_, hI', ⟨rfl, by show _ ≤ h1.length; rw [hlen1]; simp, hpay⟩,
      by show h1.length = _; rw [hlen1]; simp, hnew, hw, rfl⟩
    simp [insertHead, hH, hs1, s']

/-! ## The update of the miss path -/

theorem update_oversize (s : lruProvider) (x : String) (content : Bytes)
    (hbig : s.MaxSize < (content.length : Int)) :
    update s x content = .ok ((content, none), s) := by
  simp [update, hbig]

/-- The miss path on a well-formed cache, for content that is not larger
than `MaxSize`: either a suffix `E` of the list is evicted and the new element
goes in front of the rest, or the eviction loop runs off the empty list. -/
theorem update_spec {s : lruProvider} {L : List Nat} (hI : Inv s L) {x : String}
    {content : Bytes} (hmiss : mapGet s.Cache x = none)
    (hle : (content.length : Int) ≤ s.MaxSize) :
    (∃ s' L' E, L = L' ++ E ∧ update s x content = .ok ((content, none), s') ∧
        Inv s' (s.heap.length :: L') ∧ Extends s s' ∧
        s'.heap.length = s.heap.length + 1 ∧
        payload s'.heap s.heap.length = some (x, (content.length : Int), content) ∧
        s'.CacheSize = s.CacheSize - (E.map (sizeAt s.heap)).sum + content.length ∧
        (E = [] ↔ (content.length : Int) ≤ s.MaxSize - s.CacheSize) ∧
        (∀ a E2, E = a :: E2 →
          s.MaxSize - s.CacheSize + (E2.map (sizeAt s.heap)).sum ≤ content.length) ∧
        (E ≠ [] →
          (content.length : Int) < s.MaxSize - s.CacheSize + (E.map (sizeAt s.heap)).sum) ∧
        ¬ ((content.length : Int) = s.MaxSize ∧ 0 < s.CacheSize)) ∨
      (update s x content = .error .nilDeref ∧ (content.length : Int) = s.MaxSize ∧
        0 < s.CacheSize) := by
  have h0 := CacheSize_nonneg hI
  have hr := hI.range
  have hbd : s.CacheSize ≤ s.MaxSize ∨ s.CacheSize = 0 := by
    rcases L with _ | ⟨a, L⟩
    · right; rw [hI.size]; rfl
    · left; exact hI.bounded (by simp)
  have hw : wrap64 (s.MaxSize - s.CacheSize) = s.MaxSize - s.CacheSize :=
    wrap64_eq (by omega) (by omega)
  have hnb : ¬ (s.MaxSize < (content.length : Int)) := by omega
  by_cases hg : (content.length : Int) > s.MaxSize - s.CacheSize
  · have hfuel : L.length + 1 ≤ s.heap.length + 2 := by
      have := length_le_of_nodup hI.nodup hI.valid
      omega
    rcases evictLoop_spec content.length (s.heap.length + 2) L s _ hI rfl hfuel with
      ⟨s1, L', E, hL, hres, hI1, hE1, hlen1, hCS1, hlt, hmin, hget⟩ | ⟨hres, hge⟩
    · left
      have hfit : (content.length : Int) ≤ s1.MaxSize - s1.CacheSize := by
        rw [hE1.maxSize]; omega
      obtain ⟨s', hins, hI', hE', hlen', hnew, hCS', _⟩ :=
        insertHead_spec hI1 (hget x hmiss) hfit
      have h1 := CacheSize_nonneg hI1
      have hEne : E ≠ [] := by
        rintro rfl
        simp only [List.map_nil, List.sum_nil, sub_zero] at hCS1
        omega
      refine ⟨s', L', E, hL, ?_, by rw [← hlen1]; exact hI', hE1.trans hE',
        by omega, by rw [← hlen1]; exact hnew, by rw [hCS', hCS1], ?_, hmin, ?_, by omega⟩
      · simp only [update, gt_iff_lt, hnb, if_false, hw, hg, if_true, hres, hins]
      · constructor
        · intro h; exact absurd h hEne
        · intro h; omega
      · intro _; omega
    · right
      refine ⟨?_, by omega, by omega⟩
      simp only [update, gt_iff_lt, hnb, if_false, hw, hg, if_true, hres]
  · left
    obtain ⟨s', hins, hI', hE', hlen', hnew, hCS', _⟩ :=
      insertHead_spec hI hmiss (by omega : (content.length : Int) ≤ s.MaxSize - s.CacheSize)
    refine ⟨s', L, [], by simp, ?_, hI', hE', hlen', hnew, by simp [hCS'], ?_, ?_, ?_, by omega⟩
    · simp only [update, gt_iff_lt, hnb, if_false, hw, hg, hins]
    · constructor
      · intro _; omega
      · intro _; rfl
    · intro a E2 h; cases h
    · intro h; exact absurd rfl h

/-! ## Promotion -/

theorem lastOr_of_ne_nil {A : List Nat} (hA : A ≠ []) (p q : Option Nat) :
    lastOr A p = lastOr A q := by
  cases A with
  | nil => exact absurd rfl hA
  | cons a A => rfl

theorem Inv_promote {s s' : lruProvider} {A B : List Nat} {a h0 y : Nat}
    (hI : Inv s (A ++ a :: B)) (hh : A.head? = some h0) (hy : lastOr A none = some y)
    (hlen : s'.heap.length = s.heap.length)
    (hpay : ∀ b, payload s'.heap b = payload s.heap b)
    (hMS : s'.MaxSize = s.MaxSize) (hCS : s'.CacheSize = s.CacheSize)
    (hC : s'.Cache = s.Cache) (hH : s'.Header = some a)
    (hT : s'.Tailer = (A ++ B).getLast?)
    (hpost : ∀ q, post s'.heap q =
      if q = a then some (some h0) else
        if q = y then some (headOr B none) else post s.heap q)
    (hpre : ∀ q, pre s'.heap q =
      if q = h0 then some (some a) else
        if q = a then some none else
          if some q = B.head? then some (some y) else pre s.heap q) :
    Inv s' (a :: (A ++ B)) := by
  have hperm : (A ++ a :: B).Perm (a :: (A ++ B)) := List.perm_middle
  have hnd' : (a :: (A ++ B)).Nodup := hperm.nodup_iff.1 hI.nodup
  have hnd := List.nodup_cons.1 hnd'
  have haA : a ∉ A := fun h => hnd.1 (List.mem_append_left _ h)
  have haB : a ∉ B := fun h => hnd.1 (List.mem_append_right _ h)
  have hAB := List.nodup_append.1 hnd.2
  have hmem : ∀ b, b ∈ a :: (A ++ B) ↔ b ∈ A ++ a :: B := fun b => (hperm.mem_iff).symm
  have hAne : A ≠ [] := by rintro rfl; cases hh
  have hh0A : h0 ∈ A := List.mem_of_mem_head? hh
  have hyA : y ∈ A := by
    rw [lastOr_none] at hy
    exact List.mem_of_mem_getLast? hy
  have hfA : Fwd s.heap A (some a) := (Fwd_append.1 hI.fwd).1
  have hfB : Fwd s.heap B none := (Fwd_append.1 hI.fwd).2.2
  have hbA : Bwd s.heap none A := (Bwd_append.1 hI.bwd).1
  have hbB : Bwd s.heap (some a) B := (Bwd_append.1 hI.bwd).2.2
  have hfwd : Fwd s'.heap (a :: (A ++ B)) none := by
    refine ⟨?_, Fwd_append.2 ⟨?_, Fwd_congr (fun q hq => ?_) hfB⟩⟩
    · rw [hpost, if_pos rfl, headOr_none, List.head?_append_of_ne_nil _ hAne, hh]
    · rcases List.eq_nil_or_concat A with rfl | ⟨A0, y', hA⟩
      · exact absurd rfl hAne
      · rw [List.concat_eq_append] at hA
        subst hA
        rw [lastOr_concat] at hy
        cases hy
        have hndA := List.nodup_append.1 hAB.1
        refine Fwd_append.2 ⟨Fwd_congr (fun q hq => ?_) (Fwd_append.1 hfA).1, ?_, trivial⟩
        · have h1 : q ≠ a := fun h => haA (h ▸ List.mem_append_left _ hq)
          have h2 : q ≠ y := fun h => hndA.2.2 hq (by simp [h])
          rw [hpost, if_neg h1, if_neg h2]
        · have h1 : y ≠ a := fun h => haA (h ▸ hyA)
          show post s'.heap y = some (headOr B none)
          rw [hpost, if_neg h1, if_pos rfl]
    · have h1 : q ≠ a := fun h => haB (h ▸ hq)
      have h2 : q ≠ y := fun h => hAB.2.2 hyA (h ▸ hq)
      rw [hpost, if_neg h1, if_neg h2]
  have hbwd : Bwd s'.heap none (a :: (A ++ B)) := by
    have ha0 : a ≠ h0 := fun h => haA (h ▸ hh0A)
    refine ⟨?_, Bwd_append.2 ⟨?_, ?_⟩⟩
    · rw [hpre, if_neg ha0, if_pos rfl]
    · rcases A with _ | ⟨h0', A'⟩
      · exact absurd rfl hAne
      · cases hh
        have hndA := List.nodup_cons.1 hAB.1
        refine ⟨by rw [hpre, if_pos rfl], Bwd_congr (fun q hq => ?_) hbA.2⟩
        have h1 : q ≠ h0 := fun h => hndA.1 (h ▸ hq)
        have h2 : q ≠ a := fun h => haA (h ▸ List.mem_cons_of_mem _ hq)
        have h3 : ¬ (some q = B.head?) := fun h =>
          hAB.2.2 (List.mem_cons_of_mem _ hq) (List.mem_of_mem_head? h.symm)
        rw [hpre, if_neg h1, if_neg h2, if_neg h3]
    · rw [lastOr_of_ne_nil hAne (some a) none, hy]
      rcases B with _ | ⟨b, B'⟩
      · trivial
      · have hndB := List.nodup_cons.1 hAB.2.1
        have hb0 : b ≠ h0 := fun h => hAB.2.2 hh0A (h ▸ List.mem_cons_self _ _)
        have hba : b ≠ a := fun h => haB (h ▸ List.mem_cons_self _ _)
        refine ⟨?_, Bwd_congr (fun q hq => ?_) hbB.2⟩
        · rw [hpre, if_neg hb0, if_neg hba]
          simp
        · have h1 : q ≠ h0 := fun h => hAB.2.2 hh0A (h ▸ List.mem_cons_of_mem _ hq)
          have h2 : q ≠ a := fun h => haB (h ▸ List.mem_cons_of_mem _ hq)
          have h3 : ¬ (some q = (b :: B').head?) := by
            intro h
            simp only [List.head?_cons, Option.some.injEq] at h
            exact hndB.1 (h ▸ hq)
          rw [hpre, if_neg h1, if_neg h2, if_neg h3]
  refine
    { nodup := hnd'
      valid := fun b hb => by rw [hlen]; exact hI.valid b ((hmem b).1 hb)
      fwd := hfwd
      bwd := hbwd
      header := hH
      tailer := ?_
      keys := hC ▸ hI.keys
      cache := fun k b => by rw [hC, hI.cache, hmem, hpay]
      size := ?_
      sizes := fun b hb => ?_
      bounded := fun _ => ?_
      range := hMS ▸ hI.range }
  · rw [hT]
    cases h : A ++ B with
    | nil => simp [hAne] at h
    | cons c C => rw [List.getLast?_cons_cons]
  · rw [hCS, hI.size, map_sizeAt_congr (fun b _ => hpay b)]
    exact (hperm.map _).sum_eq
  · obtain ⟨d, hd, h⟩ := hI.sizes b ((hmem b).1 hb)
    exact ⟨d, by rw [hpay, hd], by rw [hMS]; exact h⟩
  · rw [hCS, hMS]
    exact hI.bounded (by simp)

theorem lastOr_isSome {A : List Nat} (hA : A ≠ []) (p : Option Nat) :
    ∃ y, lastOr A p = some y := by
  rcases List.eq_nil_or_concat A with rfl | ⟨A0, y, hA0⟩
  · exact absurd rfl hA
  · rw [List.concat_eq_append] at hA0
    subst hA0
    exact ⟨y, lastOr_concat _ _ _⟩

theorem getLast?_append_cons (A : List Nat) (c : Nat) (C : List Nat) :
    (A ++ c :: C).getLast? = (c :: C).getLast? := by
  rw [List.getLast?_append, List.getLast?_eq_getLast (c :: C) (by simp)]
  rfl

/-- The hit path's relinking on a well-formed cache: it cannot fault, it moves
the element to the front and touches nothing but links. -/
theorem promote_spec {s : lruProvider} {L : List Nat} {a : Nat} (hI : Inv s L) (ha : a ∈ L) :
    ∃ s', promote s a = .ok s' ∧ Inv s' (a :: L.erase a) ∧
      s'.heap.length = s.heap.length ∧ (∀ b, payload s'.heap b = payload s.heap b) ∧
      s'.Cache = s.Cache ∧ s'.CacheSize = s.CacheSize ∧ s'.MaxSize = s.MaxSize ∧
      (s.Header = some a → s' = s) := by
  obtain ⟨A, B, rfl⟩ := List.append_of_mem ha
  have hnd := List.nodup_append.1 hI.nodup
  have haA : a ∉ A := fun h => hnd.2.2 h (List.mem_cons_self _ _)
  have haB : a ∉ B := (List.nodup_cons.1 hnd.2.1).1
  have herase : (A ++ a :: B).erase a = A ++ B := by
    rw [List.erase_append_right _ haA, List.erase_cons_head]
  rw [herase]
  rcases A with _ | ⟨h0, A'⟩
  · have hH : s.Header = some a := hI.header
    refine ⟨s, ?_, hI, rfl, fun _ => rfl, rfl, rfl, rfl, fun _ => rfl⟩
    simp [promote, hH]
  · have hH : s.Header = some h0 := hI.header
    have h0a : h0 ≠ a := fun h => haA (h ▸ List.mem_cons_self _ _)
    have hHne : ¬ (s.Header = some a) := by
      rw [hH]; intro h; exact h0a (Option.some.inj h)
    obtain ⟨y, hy⟩ := lastOr_isSome (List.cons_ne_nil h0 A') none
    have hyA : y ∈ h0 :: A' := by
      rw [lastOr_none] at hy
      exact List.mem_of_mem_getLast? hy
    have hav : a < s.heap.length := hI.valid a ha
    have hyv : y < s.heap.length := hI.valid y (List.mem_append_left _ hyA)
    have h0v : h0 < s.heap.length := hI.valid h0 (by simp)
    obtain ⟨curr, he, hload⟩ := load_ok hav
    have hprev : curr.prevElem = some y := by
      have := (Bwd_append.1 hI.bwd).2.1
      rw [hy] at this
      simpa [pre, he] using this
    have hpostc : curr.postElem = headOr B none := by
      have := (Fwd_append.1 hI.fwd).2.1
      simpa [post, he] using this
    rcases B with _ | ⟨b, B'⟩
    · have hT : s.Tailer = some a := by rw [hI.tailer]; exact List.getLast?_concat _
      obtain ⟨h1, hs1, hlen1, hpay1, hpre1, hpost1⟩ := storePost_ok none hyv
      obtain ⟨h2, hs2, hlen2, hpay2, hpost2, hpre2⟩ :=
        storePrev_ok none (by omega : a < h1.length)
      obtain ⟨h3, hs3, hlen3, hpay3, hpre3, hpost3⟩ :=
        storePost_ok (some h0) (by omega : a < h2.length)
      obtain ⟨h4, hs4, hlen4, hpay4, hpost4, hpre4⟩ :=
        storePrev_ok (some a) (by omega : h0 < h3.length)
      have hpay : ∀ b, payload h4 b = payload s.heap b := fun b => by
        rw [hpay4, hpay3, hpay2, hpay1]
      refine ⟨{ s with heap := h4, Tailer := some y, Header := some a }, ?_, ?_, by
        show h4.length = _; omega, hpay, rfl, rfl, rfl, fun h => absurd h hHne⟩
      · simp [promote, hH, h0a, hload, hT, hprev, hs1, hs2, hs3, hs4]
      · refine Inv_promote hI rfl hy (by show h4.length = _; omega) hpay rfl rfl rfl rfl ?_
          (fun q => ?_) (fun q => ?_)
        · show some y = ((h0 :: A') ++ []).getLast?
          rw [List.append_nil, ← lastOr_none, hy]
        · show post h4 q = _
          rw [hpost4, hpost3, hpost2, hpost1]
          rfl
        · show pre h4 q = _
          rw [hpre4, hpre3, hpre2, hpre1]
          simp
    · have hT : ¬ (s.Tailer = some a) := by
        rw [hI.tailer]
        intro h
        rw [getLast?_append_cons, List.getLast?_cons_cons] at h
        exact haB (List.mem_of_mem_getLast? h)
      have hbv : b < s.heap.length := hI.valid b (by simp)
      have hpostb : curr.postElem = some b := hpostc
      obtain ⟨h1, hs1, hlen1, hpay1, hpre1, hpost1⟩ := storePost_ok (some b) hyv
      obtain ⟨h1', hs1', hlen1', hpay1', hpost1', hpre1'⟩ :=
        storePrev_ok (some y) (by omega : b < h1.length)
      obtain ⟨h2, hs2, hlen2, hpay2, hpost2, hpre2⟩ :=
        storePrev_ok none (by omega : a < h1'.length)
      obtain ⟨h3, hs3, hlen3, hpay3, hpre3, hpost3⟩ :=
        storePost_ok (some h0) (by omega : a < h2.length)
      obtain ⟨h4, hs4, hlen4, hpay4, hpost4, hpre4⟩ :=
        storePrev_ok (some a) (by omega : h0 < h3.length)
      have hpay : ∀ b, payload h4 b = payload s.heap b := fun b => by
        rw [hpay4, hpay3, hpay2, hpay1', hpay1]
      refine ⟨{ s with heap := h4, Header := some a }, ?_, ?_, by
        show h4.length = _; omega, hpay, rfl, rfl, rfl, fun h => absurd h hHne⟩
      · simp [promote, hH, h0a, hload, hT, hprev, hpostb, hs1, hs1', hs2, hs3, hs4]
      · refine Inv_promote hI rfl hy (by show h4.length = _; omega) hpay rfl rfl rfl rfl ?_
          (fun q => ?_) (fun q => ?_)
        · show s.Tailer = _
          rw [hI.tailer, getLast?_append_cons, getLast?_append_cons, List.getLast?_cons_cons]
        · show post h4 q = _
          rw [hpost4, hpost3, hpost2, hpost1', hpost1]
          rfl
        · show pre h4 q = _
          rw [hpre4, hpre3, hpre2, hpre1', hpre1]
          simp only [List.head?_cons, Option.some.injEq]

/-! ## The walk from `Header` to `Tailer` -/

theorem walkLoop_spec {h : List element} {t : Nat} :
    ∀ (M : List Nat) (fuel : Nat), Fwd h (M ++ [t]) none → t ∉ M → M.length ≤ fuel →
      (∀ a ∈ M, a < h.length) →
      walkLoop h (some t) fuel (headOr (M ++ [t]) none) = .ok (M, some t) := by
  intro M
  induction M with
  | nil =>
    intro fuel _ _ _ _
    unfold walkLoop
    simp [headOr]
  | cons a M ih =>
    intro fuel hf ht hlen hv
    have hat : a ≠ t := fun e => ht (e ▸ List.mem_cons_self _ _)
    obtain ⟨fuel', rfl⟩ : ∃ f, fuel = f + 1 := ⟨fuel - 1, by simp at hlen; omega⟩
    obtain ⟨e, he, hload⟩ := load_ok (hv a (List.mem_cons_self _ _))
    have hpost : e.postElem = headOr (M ++ [t]) none := by
      have := hf.1
      simpa [post, he] using this
    have hrec := ih fuel' hf.2 (fun e => ht (List.mem_cons_of_mem _ e))
      (by simp at hlen; omega) (fun b hb => hv b (List.mem_cons_of_mem _ hb))
    have hh : headOr (a :: M ++ [t]) none = some a := rfl
    rw [hh]
    unfold walkLoop
    simp [hat, hload, hpost, hrec]

/-- On a well-formed cache the walk of `debug` visits exactly the list. -/
theorem walk_eq {s : lruProvider} {L : List Nat} (hI : Inv s L) : walk s = .ok L := by
  have hlen := length_le_of_nodup hI.nodup hI.valid
  rcases List.eq_nil_or_concat L with rfl | ⟨M, t, hM⟩
  · have hH : s.Header = none := hI.header
    have hT : s.Tailer = none := hI.tailer
    unfold walk
    unfold walkLoop
    simp [hH, hT]
  · rw [List.concat_eq_append] at hM
    subst hM
    have hnd := List.nodup_append.1 hI.nodup
    have htM : t ∉ M := fun h => hnd.2.2 h (List.mem_singleton_self t)
    have hT : s.Tailer = some t := by rw [hI.tailer]; simp
    have hH : s.Header = headOr (M ++ [t]) none := by rw [hI.header, headOr_none]
    have hloop := walkLoop_spec M s.heap.length hI.fwd htM
      (by simp at hlen; omega) (fun a ha => hI.valid a (List.mem_append_left _ ha))
    obtain ⟨e, he, hload⟩ := load_ok (hI.valid t (by simp))
    unfold walk
    rw [hT, hH, hloop]
    simp [hload]

/-! ## `Read` on a well-formed cache -/

theorem payload_eq_some {h : List element} {a : Nat} {d : String × Int × Bytes} :
    payload h a = some d ↔ ∃ e, h[a]? = some e ∧ (e.name, e.bufSize, e.content) = d := by
  simp [payload]

theorem Read_miss_fail (lru : lruProvider) (st : Storage) (x : String) (err : String)
    (hmiss : mapGet lru.Cache x = none) (hfail : (st x).err? = some err) :
    Read lru st x = .ok (([], some err), lru) := by
  unfold Read
  rw [hmiss]
  cases h : st x <;> simp_all [FetchResult.err?]

theorem Read_miss_ok (lru : lruProvider) (st : Storage) (x : String) (content : Bytes)
    (hmiss : mapGet lru.Cache x = none) (hst : st x = .ok content) :
    Read lru st x = update lru x content := by
  unfold Read
  rw [hmiss, hst]

/-- A hit on a well-formed cache returns the content of the element the map
names, moves that element to the front and changes nothing else. -/
theorem Read_hit_spec {s : lruProvider} {L : List Nat} (hI : Inv s L) (st : Storage)
    {x : String} {a : Nat} (hget : mapGet s.Cache x = some a) :
    a ∈ L ∧ ∃ e s', s.heap[a]? = some e ∧ e.name = x ∧
      Read s st x = .ok ((e.content, none), s') ∧ Inv s' (a :: L.erase a) ∧
      s'.heap.length = s.heap.length ∧ (∀ b, payload s'.heap b = payload s.heap b) ∧
      s'.Cache = s.Cache ∧ s'.CacheSize = s.CacheSize ∧ s'.MaxSize = s.MaxSize ∧
      (s.Header = some a → s' = s) := by
  obtain ⟨haL, d, hd, hdx⟩ := (hI.cache x a).1 ((mapGet_eq_some hI.keys).1 hget)
  obtain ⟨e, he, hed⟩ := payload_eq_some.1 hd
  obtain ⟨s', hp, hI', hlen, hpay, hC, hCS, hMS, hsame⟩ := promote_spec hI haL
  obtain ⟨e', he', hload'⟩ := load_ok (by rw [hlen]; exact hI.valid a haL : a < s'.heap.length)
  have hc : e'.content = e.content := by
    have h1 := hpay a
    rw [hd] at h1
    obtain ⟨e2, he2, he2d⟩ := payload_eq_some.1 h1
    rw [he'] at he2
    cases he2
    rw [← hed] at he2d
    exact (Prod.mk.inj (Prod.mk.inj he2d).2).2
  refine ⟨haL, e, s', he, ?_, ?_, hI', hlen, hpay, hC, hCS, hMS, hsame⟩
  · rw [← hdx, ← hed]
  · unfold Read
    rw [hget]
    simp [hp, hload', hc]

theorem Inv_init {c : Int} (h1 : -9223372036854775808 ≤ c) (h2 : c < 9223372036854775808) :
    Inv (NewLRUProvider c) [] :=
  { nodup := List.nodup_nil
    valid := fun a ha => by cases ha
    fwd := trivial
    bwd := trivial
    header := rfl
    tailer := rfl
    keys := List.nodup_nil
    cache := fun k a => by simp [NewLRUProvider]
    size := rfl
    sizes := fun a ha => by cases ha
    bounded := fun h => absurd rfl h
    range := ⟨h1, h2⟩ }

theorem update_ok_result {s s' : lruProvider} {x : String} {content : Bytes}
    {r : Bytes × Option String} (h : update s x content = .ok (r, s')) :
    r = (content, none) := by
  unfold update at h
  simp only at h
  split at h
  · cases h; rfl
  · split at h
    · cases h
    · split at h
      · cases h
      · cases h; rfl

/-- One returning call of `Read` keeps the cache well formed; the elements
listed afterwards are old ones or the one just fetched. -/
theorem Read_step {s s' : lruProvider} {L : List Nat} (hI : Inv s L) {st : Storage}
    {x : String} {r : Bytes × Option String} (h : Read s st x = .ok (r, s')) :
    ∃ L', Inv s' L' ∧ Extends s s' ∧
      ∀ a ∈ L', (a ∈ L ∧ a < s.heap.length) ∨
        (mapGet s.Cache x = none ∧ ∃ content, st x = .ok content ∧ r = (content, none) ∧
          payload s'.heap a = some (x, (content.length : Int), content)) := by
  cases hget : mapGet s.Cache x with
  | some a =>
    obtain ⟨haL, e, s1, he, hname, hres, hI1, hlen, hpay, hC, hCS, hMS, _⟩ :=
      Read_hit_spec hI st hget
    rw [hres] at h
    cases h
    refine ⟨_, hI1, ⟨hMS, by omega, fun b _ => hpay b⟩, fun b hb => Or.inl ?_⟩
    have hbL : b ∈ L := by
      rcases List.mem_cons.1 hb with rfl | hb
      · exact haL
      · exact List.mem_of_mem_erase hb
    exact ⟨hbL, hI.valid b hbL⟩
  | none =>
    cases hst : st x with
    | ok content =>
      rw [Read_miss_ok s st x content hget hst] at h
      have hr := update_ok_result h
      subst hr
      by_cases hbig : s.MaxSize < (content.length : Int)
      · rw [update_oversize s x content hbig] at h
        cases h
        exact ⟨L, hI, Extends.refl _, fun a ha => Or.inl ⟨ha, hI.valid a ha⟩⟩
      · rcases update_spec hI hget (by omega : (content.length : Int) ≤ s.MaxSize) with
          ⟨s1, L', E, hL, hres, hI1, hE1, hlen1, hnew, _⟩ | ⟨hres, _⟩
        · rw [hres] at h
          cases h
          refine ⟨_, hI1, hE1, fun a ha => ?_⟩
          rcases List.mem_cons.1 ha with rfl | ha
          · exact Or.inr ⟨rfl, content, rfl, rfl, hnew⟩
          · have haL : a ∈ L := hL ▸ List.mem_append_left _ ha
            exact Or.inl ⟨haL, hI.valid a haL⟩
        · rw [hres] at h
          cases h
    | openErr err =>
      rw [Read_miss_fail s st x err hget (by rw [hst]; rfl)] at h
      cases h
      exact ⟨L, hI, Extends.refl _, fun a ha => Or.inl ⟨ha, hI.valid a ha⟩⟩
    | statErr err =>
      rw [Read_miss_fail s st x err hget (by rw [hst]; rfl)] at h
      cases h
      exact ⟨L, hI, Extends.refl _, fun a ha => Or.inl ⟨ha, hI.valid a ha⟩⟩
    | readErr err =>
      rw [Read_miss_fail s st x err hget (by rw [hst]; rfl)] at h
      cases h
      exact ⟨L, hI, Extends.refl _, fun a ha => Or.inl ⟨ha, hI.valid a ha⟩⟩

/-- Every reachable cache is well formed, with the capacity it was made with. -/
theorem Reachable.inv {c : Int} {s : lruProvider} (hr : Reachable c s) :
    ∃ L, Inv s L ∧ s.MaxSize = c := by
  induction hr with
  | init h1 h2 => exact ⟨[], Inv_init h1 h2, rfl⟩
  | read _ hread ih =>
    obtain ⟨L, hI, hM⟩ := ih
    obtain ⟨L', hI', hE, _⟩ := Read_step hI hread
    exact ⟨L', hI', by rw [hE.maxSize, hM]⟩

theorem ReachableWith.reachable {st : Storage} {c : Int} {s : lruProvider}
    (hr : ReachableWith st c s) : Reachable c s := by
  induction hr with
  | init h1 h2 => exact Reachable.init h1 h2
  | read _ hread ih => exact Reachable.read ih hread

/-- Against a fixed file system every cached element holds what the file
system has under its name. -/
theorem ReachableWith.agrees {st : Storage} {c : Int} {s : lruProvider}
    (hr : ReachableWith st c s) : ∃ L, Inv s L ∧ Agrees st s L := by
  induction hr with
  | init h1 h2 => exact ⟨[], Inv_init h1 h2, fun a ha => by cases ha⟩
  | read _ hread ih =>
    obtain ⟨L, hI, hA⟩ := ih
    obtain ⟨L', hI', hE, hmem⟩ := Read_step hI hread
    refine ⟨L', hI', fun a ha d hd => ?_⟩
    rcases hmem a ha with ⟨haL, hlt⟩ | ⟨_, content, hst, _, hnew⟩
    · rw [hE.payload a hlt] at hd
      exact hA a haL d hd
    · rw [hnew] at hd
      cases hd
      exact hst

theorem cache_values_perm {s : lruProvider} {L : List Nat} (hI : Inv s L) :
    (s.Cache.map Prod.snd).Perm L := by
  have hnodup : (s.Cache.map Prod.snd).Nodup := by
    refine List.Nodup.map_on ?_ (List.Nodup.of_map _ hI.keys)
    rintro ⟨k, a⟩ hka ⟨k', a'⟩ hka' heq
    simp only at heq
    subst heq
    obtain ⟨_, d, hd, hk⟩ := (hI.cache k a).1 hka
    obtain ⟨_, d', hd', hk'⟩ := (hI.cache k' a).1 hka'
    rw [hd] at hd'
    cases hd'
    rw [← hk, ← hk']
  refine (List.perm_ext_iff_of_nodup hnodup hI.nodup).2 (fun a => ?_)
  constructor
  · intro ha
    obtain ⟨⟨k, a'⟩, hka, rfl⟩ := List.mem_map.1 ha
    exact ((hI.cache k a').1 hka).1
  · intro ha
    obtain ⟨d, hd, _⟩ := hI.sizes a ha
    exact List.mem_map.2 ⟨(d.1, a), (hI.cache d.1 a).2 ⟨ha, d, hd, rfl⟩, rfl⟩

theorem cacheBytes_eq {s : lruProvider} {L : List Nat} (hI : Inv s L) :
    cacheBytes s = s.CacheSize := by
  rw [hI.size]
  have := ((cache_values_perm hI).map (sizeAt s.heap)).sum_eq
  simpa [cacheBytes, List.map_map] using this

/-- On a well-formed cache that holds something, a miss whose content is
exactly `MaxSize` bytes long makes the eviction loop run off the empty list. -/
theorem Read_full_size_faults {s : lruProvider} {L : List Nat} (hI : Inv s L) {st : Storage}
    {x : String} {content : Bytes} (hmiss : mapGet s.Cache x = none)
    (hst : st x = .ok content) (hfull : (content.length : Int) = s.MaxSize)
    (hpos : 0 < s.CacheSize) : Read s st x = .error .nilDeref := by
  rw [Read_miss_ok s st x content hmiss hst]
  rcases update_spec hI hmiss (le_of_eq hfull) with
    ⟨_, _, _, _, _, _, _, _, _, _, _, _, _, hno⟩ | ⟨hres, _⟩
  · exact absurd ⟨hfull, hpos⟩ hno
  · exact hres

theorem Inv.size_le {s : lruProvider} {L : List Nat} (hI : Inv s L) {a : Nat} (ha : a ∈ L)
    {e : element} (he : s.heap[a]? = some e) : e.bufSize ≤ s.MaxSize := by
  obtain ⟨d, hd, _, hle, _⟩ := hI.sizes a ha
  obtain ⟨e', he', hed⟩ := payload_eq_some.1 hd
  rw [he] at he'
  cases he'
  rw [← hed] at hle
  exact hle

/-! ## Reading the same name again -/

/-- After a call of `Read` that returns, the same call on the resulting cache
returns the same result and leaves that cache as it is. -/
theorem Read_twice {s s1 : lruProvider} {L : List Nat} (hI : Inv s L) {st : Storage}
    {x : String} {r : Bytes × Option String} (h : Read s st x = .ok (r, s1)) :
    Read s1 st x = .ok (r, s1) := by
  have h0 := h
  cases hget : mapGet s.Cache x with
  | some a =>
    obtain ⟨haL, e, s', he, hname, hres, hI', hlen, hpay, hC, _⟩ := Read_hit_spec hI st hget
    rw [hres] at h
    cases h
    have hget1 : mapGet s1.Cache x = some a := by rw [hC]; exact hget
    obtain ⟨_, e1, s2, he1, _, hres1, _, _, _, _, _, _, hsame⟩ := Read_hit_spec hI' st hget1
    have hs2 : s2 = s1 := hsame hI'.header
    have hc : e1.content = e.content := by
      have h1 := hpay a
      rw [payload_eq_some.2 ⟨e, he, rfl⟩] at h1
      obtain ⟨e2, he2, he2d⟩ := payload_eq_some.1 h1
      rw [he1] at he2
      cases he2
      exact (Prod.mk.inj (Prod.mk.inj he2d).2).2
    rw [hres1, hs2, hc]
  | none =>
    cases hst : st x with
    | ok content =>
      rw [Read_miss_ok s st x content hget hst] at h
      have hr := update_ok_result h
      subst hr
      by_cases hbig : s.MaxSize < (content.length : Int)
      · rw [update_oversize s x content hbig] at h
        cases h
        exact h0
      · rcases update_spec hI hget (by omega : (content.length : Int) ≤ s.MaxSize) with
          ⟨s', L', E, hL, hres, hI1, hE1, hlen1, hnew, _⟩ | ⟨hres, _⟩
        · rw [hres] at h
          cases h
          have hget1 : mapGet s1.Cache x = some s.heap.length :=
            (mapGet_eq_some hI1.keys).2
              ((hI1.cache x _).2 ⟨List.mem_cons_self _ _, _, hnew, rfl⟩)
          obtain ⟨_, e1, s2, he1, _, hres1, _, _, _, _, _, _, hsame⟩ :=
            Read_hit_spec hI1 st hget1
          have hs2 : s2 = s1 := hsame hI1.header
          have hc : e1.content = content := by
            obtain ⟨e2, he2, he2d⟩ := payload_eq_some.1 hnew
            rw [he1] at he2
            cases he2
            exact (Prod.mk.inj (Prod.mk.inj he2d).2).2
          rw [hres1, hs2, hc]
        · rw [hres] at h
          cases h
    | openErr err =>
      rw [Read_miss_fail s st x err hget (by rw [hst]; rfl)] at h
      cases h
      exact h0
    | statErr err =>
      rw [Read_miss_fail s st x err hget (by rw [hst]; rfl)] at h
      cases h
      exact h0
    | readErr err =>
      rw [Read_miss_fail s st x err hget (by rw [hst]; rfl)] at h
      cases h
      exact h0

theorem ReadAll_fixed {s : lruProvider} {st : Storage} {x : String}
    {r : Bytes × Option String} (h : Read s st x = .ok (r, s)) (n : Nat) :
    ReadAll st s (List.replicate n x) = .ok (List.replicate n r, s) := by
  induction n with
  | zero => rfl
  | succ n ih =>
    show ReadAll st s (x :: List.replicate n x) = _
    unfold ReadAll
    simp only [h, ih]
    rfl

/-! ## More on hits -/

theorem Inv.links {s : lruProvider} {A B : List Nat} {a : Nat} (hI : Inv s (A ++ a :: B)) :
    ∃ e, s.heap[a]? = some e ∧ e.prevElem = A.getLast? ∧ e.postElem = B.head? := by
  obtain ⟨e, he, _⟩ := load_ok (hI.valid a (by simp))
  refine ⟨e, he, ?_, ?_⟩
  · have := (Bwd_append.1 hI.bwd).2.1
    rw [lastOr_none] at this
    simpa [pre, he] using this
  · have := (Fwd_append.1 hI.fwd).2.1
    rw [headOr_none] at this
    simpa [post, he] using this

theorem WellFormed.walk {s : lruProvider} {L : List Nat} (hwf : WellFormed s)
    (hw : walk s = .ok L) : Inv s L := by
  obtain ⟨L0, hI⟩ := hwf
  rw [walk_eq hI] at hw
  cases hw
  exact hI

theorem Reachable.wellFormed {c : Int} {s : lruProvider} (hr : Reachable c s) :
    WellFormed s := by
  obtain ⟨L, hI, _⟩ := hr.inv
  exact ⟨L, hI⟩

/-! ## More on misses -/

theorem mapDelete_of_none {m : List (String × Nat)} {x : String} (h : mapGet m x = none) :
    mapDelete m x = m := by
  induction m with
  | nil => rfl
  | cons kv m ih =>
    obtain ⟨k0, v0⟩ := kv
    unfold mapGet at h
    unfold mapDelete
    by_cases hk : k0 = x
    · simp [hk] at h
    · simp only [hk, if_false] at h ⊢
      rw [ih h]

/-- The miss path on a well-formed cache when the content fits the free space:
nothing is evicted and the new element goes in front of the whole list. -/
theorem update_fits {s : lruProvider} {L : List Nat} (hI : Inv s L) {x : String}
    {content : Bytes} (hmiss : mapGet s.Cache x = none)
    (hfit : (content.length : Int) ≤ s.MaxSize - s.CacheSize) :
    ∃ s', update s x content = .ok ((content, none), s') ∧ Inv s' (s.heap.length :: L) ∧
      Extends s s' ∧ s'.heap.length = s.heap.length + 1 ∧
      payload s'.heap s.heap.length = some (x, (content.length : Int), content) ∧
      s'.CacheSize = s.CacheSize + content.length ∧
      s'.Cache = (x, s.heap.length) :: s.Cache := by
  have h0 := CacheSize_nonneg hI
  have hr := hI.range
  have hw : wrap64 (s.MaxSize - s.CacheSize) = s.MaxSize - s.CacheSize :=
    wrap64_eq (by omega) (by omega)
  have hnb : ¬ (s.MaxSize < (content.length : Int)) := by omega
  have hg : ¬ ((content.length : Int) > s.MaxSize - s.CacheSize) := by omega
  obtain ⟨s', hins, hI', hE', hlen', hnew, hCS', hC'⟩ := insertHead_spec hI hmiss hfit
  refine ⟨s', ?_, hI', hE', hlen', hnew, hCS', ?_⟩
  · simp only [update, gt_iff_lt, hnb, if_false, hw, hg, hins]
  · rw [hC', mapSet, mapDelete_of_none hmiss]

theorem sum_drop_le {f : Nat → Int} (M : List Nat) (n : Nat) (hf : ∀ a ∈ M, 0 ≤ f a) :
    ((M.drop n).map f).sum ≤ (M.map f).sum := by
  have h1 : (M.map f).sum = ((M.take n).map f).sum + ((M.drop n).map f).sum := by
    rw [← List.sum_append, ← List.map_append, List.take_append_drop]
  have h2 : 0 ≤ ((M.take n).map f).sum := by
    apply List.sum_nonneg
    intro y hy
    obtain ⟨a, ha, rfl⟩ := List.mem_map.1 hy
    exact hf a (List.mem_of_mem_take ha)
  omega

theorem Inv.cache_nil_iff {s : lruProvider} {L : List Nat} (hI : Inv s L) :
    s.Cache = [] ↔ L = [] := by
  have hp := cache_values_perm hI
  constructor
  · intro h
    rw [h] at hp
    exact (List.Perm.nil_eq hp).symm
  · intro h
    rw [h, List.perm_nil, List.map_eq_nil_iff] at hp
    exact hp

theorem reach_cacheA60 : Reachable 100 cacheA60 :=
  @Reachable.read 100 (NewLRUProvider 100) cacheA60 (files [("a", 60)]) "a" (zeros 60, none)
    (Reachable.init (by decide) (by decide)) (by decide!)

/-! ## Concrete runs -/

theorem reach_cacheA : Reachable 100 cacheA :=
  @Reachable.read 100 (NewLRUProvider 100) cacheA (files [("a", 40)]) "a" (zeros 40, none)
    (Reachable.init (by decide) (by decide)) (by decide!)

theorem reach_cacheBA : Reachable 100 cacheBA :=
  @Reachable.read 100 cacheA cacheBA (files [("b", 40)]) "b" (zeros 40, none)
    reach_cacheA (by decide!)

theorem reachWith_cacheBA :
    ReachableWith (files [("a", 40), ("b", 40), ("c", 40)]) 100 cacheBA :=
  @ReachableWith.read _ 100 cacheA cacheBA "b" (zeros 40, none)
    (@ReachableWith.read _ 100 (NewLRUProvider 100) cacheA "a" (zeros 40, none)
      (ReachableWith.init (by decide) (by decide)) (by decide!)) (by decide!)

theorem reach_cacheX : Reachable 50 cacheX :=
  @Reachable.read 50 (NewLRUProvider 50) cacheX (files [("x", 10)]) "x" (zeros 10, none)
    (Reachable.init (by decide) (by decide)) (by decide!)

/-! ## The claims -/

/-- C1. Size accounting: for every capacity `c ≥ 0` (an `int64`), in every state
reached from `NewLRUProvider c` by calls of `Read` that return (whatever the
file system answers at each call), `CacheSize` is the sum of `bufSize` over the
entries of the `Cache` map, and `CacheSize ≤ MaxSize`. -/
theorem size_accounting (c : Int) (hc : 0 ≤ c) (s : lruProvider) (hr : Reachable c s) :
    s.CacheSize = cacheBytes s ∧ s.CacheSize ≤ s.MaxSize := by
  obtain ⟨L, hI, hM⟩ := hr.inv
  refine ⟨(cacheBytes_eq hI).symm, ?_⟩
  rcases L with _ | ⟨a, L⟩
  · have h0 : s.CacheSize = 0 := by rw [hI.size]; rfl
    omega
  · exact hI.bounded (by simp)

/-- C1 at capacity 100 after `Read(a)`, `Read(b)` of 40 bytes each. -/
theorem size_accounting_witness :
    cacheBA.CacheSize = cacheBytes cacheBA ∧ cacheBA.CacheSize ≤ cacheBA.MaxSize :=
  size_accounting 100 (by decide) cacheBA reach_cacheBA

/-- C2. Index/list consistency: in every state reached from `NewLRUProvider` by
calls of `Read` that return, the walk of `postElem` from `Header` to `Tailer`
ends, visits no element twice, visits exactly the elements the `Cache` map
points to, and a key maps to an element iff that element is visited and
carries the key as its name. -/
theorem index_list_consistency (c : Int) (s : lruProvider) (hr : Reachable c s) :
    ∃ L, walk s = .ok L ∧ L.Nodup ∧ (s.Cache.map Prod.snd).Perm L ∧
      (s.Cache.map Prod.fst).Nodup ∧
      ∀ k a, mapGet s.Cache k = some a ↔ a ∈ L ∧ ∃ e, s.heap[a]? = some e ∧ e.name = k := by
  obtain ⟨L, hI, _⟩ := hr.inv
  refine ⟨L, walk_eq hI, hI.nodup, cache_values_perm hI, hI.keys, fun k a => ?_⟩
  rw [mapGet_eq_some hI.keys, hI.cache]
  constructor
  · rintro ⟨ha, d, hd, hk⟩
    obtain ⟨e, he, hed⟩ := payload_eq_some.1 hd
    exact ⟨ha, e, he, by rw [← hk, ← hed]⟩
  · rintro ⟨ha, e, he, hk⟩
    exact ⟨ha, _, payload_eq_some.2 ⟨e, he, rfl⟩, hk⟩

/-- C2 at capacity 100 after `Read(a)`, `Read(b)`: the walk is `b`, `a`. -/
theorem index_list_consistency_witness :
    ∃ L, walk cacheBA = .ok L ∧ L.Nodup ∧ (cacheBA.Cache.map Prod.snd).Perm L ∧
      (cacheBA.Cache.map Prod.fst).Nodup ∧
      ∀ k a, mapGet cacheBA.Cache k = some a ↔
        a ∈ L ∧ ∃ e, cacheBA.heap[a]? = some e ∧ e.name = k :=
  index_list_consistency 100 cacheBA reach_cacheBA

/-- C3. Cache transparency: against a fixed file system `st`, in every state
reached from a fresh cache of any capacity, a `Read(x)` that returns gives
exactly what the file system gives for `x`: the content and a nil error, or a
nil slice and the error of the failed fetch. -/
theorem cache_transparency (st : Storage) (c : Int) (s : lruProvider)
    (hr : ReachableWith st c s) (x : String) (r : Bytes × Option String) (s' : lruProvider)
    (h : Read s st x = .ok (r, s')) : r = (st x).direct := by
  obtain ⟨L, hI, hA⟩ := hr.agrees
  cases hget : mapGet s.Cache x with
  | some a =>
    obtain ⟨haL, e, s1, he, hname, hres, _⟩ := Read_hit_spec hI st hget
    rw [hres] at h
    cases h
    have := hA a haL _ (payload_eq_some.2 ⟨e, he, rfl⟩)
    simp only [hname] at this
    rw [this]
    rfl
  | none =>
    cases hst : st x with
    | ok content =>
      rw [Read_miss_ok s st x content hget hst] at h
      rw [update_ok_result h]
      rfl
    | openErr err =>
      rw [Read_miss_fail s st x err hget (by rw [hst]; rfl)] at h
      cases h; rfl
    | statErr err =>
      rw [Read_miss_fail s st x err hget (by rw [hst]; rfl)] at h
      cases h; rfl
    | readErr err =>
      rw [Read_miss_fail s st x err hget (by rw [hst]; rfl)] at h
      cases h; rfl

/-- C3 on a hit: capacity 100 holding `a` and `b`, `Read(a)` gives the 40 bytes
of `a`. -/
theorem cache_transparency_witness :
    ((zeros 40, none) : Bytes × Option String) =
      (files [("a", 40), ("b", 40), ("c", 40)] "a").direct :=
  cache_transparency (files [("a", 40), ("b", 40), ("c", 40)]) 100 cacheBA reachWith_cacheBA "a"
    (zeros 40, none) cacheAB (by decide!)

/-- C4. Storage-failure atomicity: in every cache state, for a name that is not
in the `Cache` map and whose fetch fails (open, stat or read), `Read` returns
that error, with a nil slice, and the cache (map, list, heap, `CacheSize`,
`MaxSize`) is exactly the one before the call. -/
theorem Read_storage_failure (lru : lruProvider) (st : Storage) (x : String) (err : String)
    (hmiss : mapGet lru.Cache x = none) (hfail : (st x).err? = some err) :
    Read lru st x = .ok (([], some err), lru) :=
  Read_miss_fail lru st x err hmiss hfail

/-- C4 at a cache holding `a`, asked for a file `zz` that cannot be opened. -/
theorem Read_storage_failure_witness :
    Read cacheA (files [("a", 40)]) "zz" = .ok (([], some "no such file"), cacheA) :=
  Read_storage_failure cacheA (files [("a", 40)]) "zz" "no such file" (by decide!) (by decide!)

/-- C5, as stated, fails on a hit. Capacity 50 with `x` cached at 10 bytes (a
reachable state); the file has since grown to 80 bytes, more than `MaxSize`.
`Read(x)` returns the 10 cached bytes, not the 80 the file system holds, and
`x` is still in the `Cache` map. -/
theorem oversize_passthrough_counterexample :
    Reachable 50 cacheX ∧ files [("x", 80)] "x" = .ok (zeros 80) ∧
      cacheX.MaxSize < ((zeros 80).length : Int) ∧
      Read cacheX (files [("x", 80)]) "x" = .ok ((zeros 10, none), cacheX) ∧
      zeros 10 ≠ zeros 80 ∧ mapGet cacheX.Cache "x" = some 0 :=
  ⟨reach_cacheX, by decide!, by decide!, by decide!, by decide!, by decide!⟩

/-- C5, amended. Oversize pass-through: in every cache state, for a name that is
not in the `Cache` map and whose fetched content is longer than `MaxSize`,
`Read` returns that content with a nil error and the cache is exactly the one
before the call (so the name is still not in the map). And in every reachable
state no element in the `Cache` map or on the list has `bufSize > MaxSize`. -/
theorem oversize_passthrough :
    (∀ (s : lruProvider) (st : Storage) (x : String) (content : Bytes),
      mapGet s.Cache x = none → st x = .ok content → s.MaxSize < (content.length : Int) →
      Read s st x = .ok ((content, none), s)) ∧
    (∀ (c : Int) (s : lruProvider), Reachable c s →
      (∀ k a e, mapGet s.Cache k = some a → s.heap[a]? = some e → e.bufSize ≤ s.MaxSize) ∧
      (∀ L, walk s = .ok L → ∀ a ∈ L, ∀ e, s.heap[a]? = some e → e.bufSize ≤ s.MaxSize)) := by
  refine ⟨fun s st x content hmiss hst hbig => ?_, fun c s hr => ?_⟩
  · rw [Read_miss_ok s st x content hmiss hst]
    exact update_oversize s x content hbig
  · obtain ⟨L, hI, _⟩ := hr.inv
    refine ⟨fun k a e hget he => ?_, fun L' hw a ha e he => ?_⟩
    · exact hI.size_le ((hI.cache k a).1 ((mapGet_eq_some hI.keys).1 hget)).1 he
    · rw [walk_eq hI] at hw
      cases hw
      exact hI.size_le ha he

/-- C5, amended, at capacity 50 and a file of 80 bytes: the call succeeds with
the 80 bytes and the cache stays empty with `CacheSize` 0. -/
theorem oversize_passthrough_witness :
    Read (NewLRUProvider 50) (files [("x", 80)]) "x" =
      .ok ((zeros 80, none), NewLRUProvider 50) :=
  oversize_passthrough.1 (NewLRUProvider 50) (files [("x", 80)]) "x" (zeros 80)
    (by decide!) (by decide!) (by decide!)

/-- C6. Recency: in every reachable state, for a name `x` the `Cache` map sends
to element `a`, `Read(x)` returns and afterwards `Header` is `a`, the walk
from `Header` starts with `a`, and `a` is still the entry of `x`. -/
theorem recency (c : Int) (s : lruProvider) (hr : Reachable c s) (st : Storage) (x : String)
    (a : Nat) (hx : mapGet s.Cache x = some a) :
    ∃ r s', Read s st x = .ok (r, s') ∧ s'.Header = some a ∧
      (∃ rest, walk s' = .ok (a :: rest)) ∧ mapGet s'.Cache x = some a ∧
      ∃ e, s'.heap[a]? = some e ∧ e.name = x := by
  obtain ⟨L, hI, _⟩ := hr.inv
  obtain ⟨haL, e, s', he, hname, hres, hI', hlen, hpay, hC, _⟩ := Read_hit_spec hI st hx
  refine ⟨_, s', hres, hI'.header, ⟨_, walk_eq hI'⟩, by rw [hC]; exact hx, ?_⟩
  have := hpay a
  rw [payload_eq_some.2 ⟨e, he, rfl⟩] at this
  obtain ⟨e', he', hed⟩ := payload_eq_some.1 this
  exact ⟨e', he', by rw [← hname]; exact (Prod.mk.inj hed).1⟩

/-- C6 at capacity 100 holding `b` (head) and `a` (tail): after `Read(a)` the
head is `a`. -/
theorem recency_witness :
    ∃ r s', Read cacheBA (files []) "a" = .ok (r, s') ∧ s'.Header = some 0 ∧
      (∃ rest, walk s' = .ok (0 :: rest)) ∧ mapGet s'.Cache "a" = some 0 ∧
      ∃ e, s'.heap[0]? = some e ∧ e.name = "a" :=
  recency 100 cacheBA reach_cacheBA (files []) "a" 0 (by decide!)

/-- C7 fails on the code. Capacity 100 holding `b`, `a` (40 bytes each, `a` at
the tail), so 20 bytes are free. A miss on `c` of 60 bytes: evicting `a` alone
frees 20 + 40 = 60 bytes, enough for `c`, yet `Read` evicts `b` as well and
leaves `c` as the only entry. -/
theorem eviction_not_minimal :
    Reachable 100 cacheBA ∧ walk cacheBA = .ok [1, 0] ∧
      cacheBA.MaxSize - cacheBA.CacheSize = 20 ∧ sizeAt cacheBA.heap 0 = 40 ∧
      ((zeros 60).length : Int) ≤ 20 + 40 ∧
      Read cacheBA (files [("c", 60)]) "c" = .ok ((zeros 60, none), cacheC) ∧
      cacheC.Cache = [("c", 2)] ∧ walk cacheC = .ok [2] :=
  ⟨reach_cacheBA, by decide!, by decide!, by decide!, by decide!, by decide!, by decide!,
    by decide!⟩

/-- C8. LRU eviction order: in every reachable state with head-to-tail walk `L`,
a miss on `x` whose content is not longer than `MaxSize`, if `Read` returns,
leaves the walk `new :: L.take k` for some `k`, where `new` is a fresh address
holding `x` and its content: the elements gone are a suffix of `L`, the ones
kept are a prefix in the same order, with name, size and content untouched.
Scenario 1 (capacity 100, `a`, `b`, `c` of 40 bytes) ends with map `{c, b}`,
`CacheSize` 80, head `c`, tail `b`; scenario 4 (capacity 100, `a`, `b` of 30
bytes, `a` again, `c` of 50 bytes) ends with map `{c, a}`, `CacheSize` 80. -/
theorem lru_eviction_order :
    (∀ (c : Int) (s s' : lruProvider) (st : Storage) (x : String) (content : Bytes)
        (r : Bytes × Option String) (L : List Nat),
      Reachable c s → walk s = .ok L → mapGet s.Cache x = none → st x = .ok content →
      (content.length : Int) ≤ s.MaxSize → Read s st x = .ok (r, s') →
      ∃ k, walk s' = .ok (s.heap.length :: L.take k) ∧ s.heap.length ∉ L ∧
        payload s'.heap s.heap.length = some (x, (content.length : Int), content) ∧
        mapGet s'.Cache x = some s.heap.length ∧
        ∀ a ∈ L.take k, payload s'.heap a = payload s.heap a) ∧
    (∃ rs, ReadAll (files [("a", 40), ("b", 40), ("c", 40)]) (NewLRUProvider 100)
        ["a", "b", "c"] = .ok (rs, cacheCB) ∧
      cacheCB.Cache = [("c", 2), ("b", 1)] ∧ cacheCB.CacheSize = 80 ∧
      cacheCB.Header = mapGet cacheCB.Cache "c" ∧ cacheCB.Tailer = mapGet cacheCB.Cache "b" ∧
      walk cacheCB = .ok [2, 1]) ∧
    (∃ rs, ReadAll (files [("a", 30), ("b", 30), ("c", 50)]) (NewLRUProvider 100)
        ["a", "b", "a", "c"] = .ok (rs, cacheCA) ∧
      cacheCA.Cache = [("c", 2), ("a", 0)] ∧ cacheCA.CacheSize = 80 ∧
      walk cacheCA = .ok [2, 0]) := by
  refine ⟨?_, ?_, ?_⟩
  · intro c s s' st x content r L hr hw hmiss hst hle hread
    obtain ⟨L0, hI, _⟩ := hr.inv
    rw [walk_eq hI] at hw
    cases hw
    rw [Read_miss_ok s st x content hmiss hst] at hread
    rcases update_spec hI hmiss hle with
      ⟨s1, L', E, hL, hres, hI1, hE1, hlen1, hnew, _⟩ | ⟨hres, _⟩
    · rw [hres] at hread
      cases hread
      subst hL
      have hL' : (L' ++ E).take L'.length = L' := List.take_left _ _
      refine ⟨L'.length, by rw [hL']; exact walk_eq hI1,
        fun h => lt_irrefl _ (hI.valid _ h), hnew, ?_, fun a ha => ?_⟩
      · exact (mapGet_eq_some hI1.keys).2
          ((hI1.cache x _).2 ⟨List.mem_cons_self _ _, _, hnew, rfl⟩)
      · rw [hL'] at ha
        exact hE1.payload a (hI.valid a (List.mem_append_left _ ha))
    · rw [hres] at hread
      cases hread
  · exact ⟨[(zeros 40, none), (zeros 40, none), (zeros 40, none)], by decide!, by decide!,
      by decide!, by decide!, by decide!, by decide!⟩
  · exact ⟨[(zeros 30, none), (zeros 30, none), (zeros 30, none), (zeros 50, none)],
      by decide!, by decide!, by decide!, by decide!⟩

/-- C8 at capacity 100 holding `b`, `a` (40 bytes each): the miss on `c` of 40
bytes leaves the walk `c`, `b`. -/
theorem lru_eviction_order_witness :
    ∃ k, walk cacheCB = .ok (cacheBA.heap.length :: [1, 0].take k) ∧
      cacheBA.heap.length ∉ [1, 0] ∧
      payload cacheCB.heap cacheBA.heap.length = some ("c", ((zeros 40).length : Int), zeros 40) ∧
      mapGet cacheCB.Cache "c" = some cacheBA.heap.length ∧
      ∀ a ∈ [1, 0].take k, payload cacheCB.heap a = payload cacheBA.heap a :=
  lru_eviction_order.1 100 cacheBA cacheCB (files [("c", 40)]) "c" (zeros 40) (zeros 40, none)
    [1, 0] reach_cacheBA (by decide!) (by decide!) (by decide!) (by decide!) (by decide!)

/-- C9 fails on the code. Capacity 100 holding `a` of 40 bytes (a reachable
state); a miss on `b` of exactly 100 bytes, which is not more than `MaxSize`:
the eviction loop evicts `a`, tests `100 >= 100`, takes the tail of the now
empty list and dereferences nil. `Read` does not return. -/
theorem full_size_read_faults :
    Reachable 100 cacheA ∧ ((zeros 100).length : Int) ≤ cacheA.MaxSize ∧
      mapGet cacheA.Cache "b" = none ∧ files [("b", 100)] "b" = .ok (zeros 100) ∧
      Read cacheA (files [("b", 100)]) "b" = .error .nilDeref :=
  ⟨reach_cacheA, by decide!, by decide!, by decide!, by decide!⟩

/-- C10. Errors only on storage failure, hits never touch storage: in every
reachable state, `Read(x)` returns a non-nil error iff `x` is not in the
`Cache` map and the fetch of `x` fails; and when `x` is in the map, `Read(x)`
returns the content stored in the entry of `x` with a nil error, whatever the
file system `st` would answer. -/
theorem errors_only_on_storage_failure (c : Int) (s : lruProvider) (hr : Reachable c s)
    (st : Storage) (x : String) :
    ((∃ r s', Read s st x = .ok (r, s') ∧ r.2 ≠ none) ↔
        (mapGet s.Cache x = none ∧ (st x).err? ≠ none)) ∧
      (∀ a, mapGet s.Cache x = some a →
        ∃ e s', s.heap[a]? = some e ∧ e.name = x ∧
          Read s st x = .ok ((e.content, none), s')) := by
  obtain ⟨L, hI, _⟩ := hr.inv
  refine ⟨⟨?_, ?_⟩, fun a ha => ?_⟩
  · rintro ⟨r, s', hread, hne⟩
    cases hget : mapGet s.Cache x with
    | some a =>
      obtain ⟨_, e, s1, _, _, hres, _⟩ := Read_hit_spec hI st hget
      rw [hres] at hread
      cases hread
      exact absurd rfl hne
    | none =>
      refine ⟨rfl, ?_⟩
      cases hst : st x with
      | ok content =>
        rw [Read_miss_ok s st x content hget hst] at hread
        rw [update_ok_result hread] at hne
        exact absurd rfl hne
      | openErr err => simp [FetchResult.err?]
      | statErr err => simp [FetchResult.err?]
      | readErr err => simp [FetchResult.err?]
  · rintro ⟨hget, hne⟩
    obtain ⟨err, herr⟩ := Option.ne_none_iff_exists'.1 hne
    exact ⟨_, s, Read_miss_fail s st x err hget herr, by simp⟩
  · obtain ⟨_, e, s', he, hname, hres, _⟩ := Read_hit_spec hI st ha
    exact ⟨e, s', he, hname, hres⟩

/-- C10 at capacity 100 holding `b`, `a`, against a file system where every
open fails: `Read(zz)` returns the error, `Read(a)` returns the cached bytes. -/
theorem errors_only_on_storage_failure_witness :
    ((∃ r s', Read cacheBA (files []) "zz" = .ok (r, s') ∧ r.2 ≠ none) ↔
        (mapGet cacheBA.Cache "zz" = none ∧ (files [] "zz").err? ≠ none)) ∧
      (∀ a, mapGet cacheBA.Cache "zz" = some a →
        ∃ e s', cacheBA.heap[a]? = some e ∧ e.name = "zz" ∧
          Read cacheBA (files []) "zz" = .ok ((e.content, none), s')) :=
  errors_only_on_storage_failure 100 cacheBA reach_cacheBA (files []) "zz"

/-- C11. Idempotence of content: in every reachable state, if `Read(x)` returns
content (nil error), then against the same file system every number of
further calls of `Read(x)`, one right after the other, all return, each with
the same bytes and a nil error. -/
theorem content_idempotent (c : Int) (s s1 : lruProvider) (hr : Reachable c s) (st : Storage)
    (x : String) (content : Bytes) (h : Read s st x = .ok ((content, none), s1)) (n : Nat) :
    ∃ s2, ReadAll st s1 (List.replicate n x) = .ok (List.replicate n (content, none), s2) := by
  obtain ⟨L, hI, _⟩ := hr.inv
  exact ⟨s1, ReadAll_fixed (Read_twice hI h) n⟩

/-- C11 at capacity 100 holding `a`: after the miss on `b`, three more calls of
`Read(b)` return the same 40 bytes. -/
theorem content_idempotent_witness :
    ∃ s2, ReadAll (files [("b", 40)]) cacheBA (List.replicate 3 "b") =
      .ok (List.replicate 3 (zeros 40, none), s2) :=
  content_idempotent 100 cacheA cacheBA reach_cacheA (files [("b", 40)]) "b" (zeros 40)
    (by decide!) 3

/-- C14. Hit path, move to front and frame: in a state satisfying the invariants
whose head-to-tail walk is `L`, for `x` mapped to element `a`, `Read(x)`
returns the content of `a`; afterwards the walk is `a` followed by `L` without
`a` (a sublist of `L`, so the others keep their order), `Tailer` is the former
`prevElem` of `a` when `a` was the tail of a list of two or more, the state is
the same when `a` was the head, and the `Cache` map, every element's name,
`bufSize` and content, `CacheSize` and `MaxSize` are unchanged. -/
theorem hit_moves_to_front (s : lruProvider) (L : List Nat) (hwf : WellFormed s)
    (hw : walk s = .ok L) (st : Storage) (x : String) (a : Nat)
    (hx : mapGet s.Cache x = some a) :
    a ∈ L ∧ ∃ e s', s.heap[a]? = some e ∧ Read s st x = .ok ((e.content, none), s') ∧
      walk s' = .ok (a :: L.erase a) ∧ (L.erase a).Sublist L ∧
      s'.Cache = s.Cache ∧ (∀ b, payload s'.heap b = payload s.heap b) ∧
      s'.CacheSize = s.CacheSize ∧ s'.MaxSize = s.MaxSize ∧
      (∀ M, L = M ++ [a] → M ≠ [] → s'.Tailer = M.getLast? ∧ e.prevElem = M.getLast?) ∧
      (L.head? = some a → s' = s) := by
  have hI := hwf.walk hw
  obtain ⟨haL, e, s', he, _, hres, hI', _, hpay, hC, hCS, hMS, hsame⟩ := Read_hit_spec hI st hx
  refine ⟨haL, e, s', he, hres, walk_eq hI', List.erase_sublist _ _, hC, hpay, hCS, hMS, ?_,
    fun hh => hsame (hI.header.trans hh)⟩
  intro M hL hM
  subst hL
  have hnd := List.nodup_append.1 hI.nodup
  have haM : a ∉ M := fun h => hnd.2.2 h (List.mem_singleton_self a)
  obtain ⟨e0, he0, hprev, _⟩ := hI.links
  rw [he] at he0
  cases he0
  refine ⟨?_, hprev⟩
  rw [hI'.tailer, List.erase_append_right _ haM, List.erase_cons_head, List.append_nil]
  cases M with
  | nil => exact absurd rfl hM
  | cons m M => rw [List.getLast?_cons_cons]

/-- C14 at capacity 100 holding `b`, `a`: `Read(a)` leaves the walk `a`, `b`. -/
theorem hit_moves_to_front_witness :
    (0 : Nat) ∈ [1, 0] ∧ ∃ e s', cacheBA.heap[0]? = some e ∧
      Read cacheBA (files []) "a" = .ok ((e.content, none), s') ∧
      walk s' = .ok (0 :: [1, 0].erase 0) ∧ ([1, 0].erase 0).Sublist [1, 0] ∧
      s'.Cache = cacheBA.Cache ∧ (∀ b, payload s'.heap b = payload cacheBA.heap b) ∧
      s'.CacheSize = cacheBA.CacheSize ∧ s'.MaxSize = cacheBA.MaxSize ∧
      (∀ M, [1, 0] = M ++ [0] → M ≠ [] → s'.Tailer = M.getLast? ∧ e.prevElem = M.getLast?) ∧
      ([1, 0].head? = some 0 → s' = cacheBA) :=
  hit_moves_to_front cacheBA [1, 0] reach_cacheBA.wellFormed (by decide!) (files []) "a" 0
    (by decide!)

/-- C16. Promotion cannot fail: in a state satisfying the invariants, for `x`
mapped to element `a`: `Header` points to an element; when `a` is not the
`Header` its `prevElem` points to an element; when `a` is neither `Header`
nor `Tailer` its `postElem` points to an element; the relinking returns
without a fault and `Read(x)` returns the content of `a`. -/
theorem promotion_cannot_fail (s : lruProvider) (hwf : WellFormed s) (st : Storage)
    (x : String) (a : Nat) (hx : mapGet s.Cache x = some a) :
    ∃ e, s.heap[a]? = some e ∧
      (∃ h eh, s.Header = some h ∧ s.heap[h]? = some eh) ∧
      (s.Header ≠ some a → ∃ p ep, e.prevElem = some p ∧ s.heap[p]? = some ep) ∧
      (s.Header ≠ some a → s.Tailer ≠ some a →
        ∃ q eq, e.postElem = some q ∧ s.heap[q]? = some eq) ∧
      (∃ s', promote s a = .ok s') ∧
      (∃ s', Read s st x = .ok ((e.content, none), s')) := by
  obtain ⟨L, hI⟩ := hwf
  obtain ⟨haL, e, s', he, _, hres, _⟩ := Read_hit_spec hI st hx
  obtain ⟨s2, hp, _⟩ := promote_spec hI haL
  obtain ⟨A, B, rfl⟩ := List.append_of_mem haL
  obtain ⟨e0, he0, hprev, hpost⟩ := hI.links
  rw [he] at he0
  cases he0
  have hvalid : ∀ b, b ∈ A ++ a :: B → ∃ eb, s.heap[b]? = some eb := fun b hb => by
    obtain ⟨eb, heb, _⟩ := load_ok (hI.valid b hb)
    exact ⟨eb, heb⟩
  refine ⟨e, he, ?_, ?_, ?_, ⟨s2, hp⟩, ⟨s', hres⟩⟩
  · cases hH : (A ++ a :: B).head? with
    | none => cases A <;> simp at hH
    | some h =>
      obtain ⟨eh, heh⟩ := hvalid h (List.mem_of_mem_head? hH)
      exact ⟨h, eh, hI.header.trans hH, heh⟩
  · intro hne
    cases hA : A.getLast? with
    | none =>
      have : A = [] := List.getLast?_eq_none_iff.1 hA
      subst this
      exact absurd hI.header hne
    | some p =>
      obtain ⟨ep, hep⟩ := hvalid p (List.mem_append_left _ (List.mem_of_mem_getLast? hA))
      exact ⟨p, ep, hprev.trans hA, hep⟩
  · intro _ hne
    cases hB : B.head? with
    | none =>
      have : B = [] := List.head?_eq_none_iff.1 hB
      subst this
      exact absurd (hI.tailer.trans (List.getLast?_concat _)) hne
    | some q =>
      obtain ⟨eq, heq⟩ :=
        hvalid q (List.mem_append_right _ (List.mem_cons_of_mem _ (List.mem_of_mem_head? hB)))
      exact ⟨q, eq, hpost.trans hB, heq⟩

/-- C16 at capacity 100 holding `b`, `a`, for the tail `a`. -/
theorem promotion_cannot_fail_witness :
    ∃ e, cacheBA.heap[0]? = some e ∧
      (∃ h eh, cacheBA.Header = some h ∧ cacheBA.heap[h]? = some eh) ∧
      (cacheBA.Header ≠ some 0 → ∃ p ep, e.prevElem = some p ∧ cacheBA.heap[p]? = some ep) ∧
      (cacheBA.Header ≠ some 0 → cacheBA.Tailer ≠ some 0 →
        ∃ q eq, e.postElem = some q ∧ cacheBA.heap[q]? = some eq) ∧
      (∃ s', promote cacheBA 0 = .ok s') ∧
      (∃ s', Read cacheBA (files []) "a" = .ok ((e.content, none), s')) :=
  promotion_cannot_fail cacheBA reach_cacheBA.wellFormed (files []) "a" 0 (by decide!)

/-- C19. State idempotence of `Read`: in every reachable state, if `Read(x)`
returns (on a hit, a cached miss, an oversize pass-through or a storage
error), then against the same file system a second `Read(x)` right after it
returns the same result and leaves the cache exactly as the first call left
it: same `Cache` map, same walk from `Header` to `Tailer`, same `CacheSize`. -/
theorem state_idempotent (c : Int) (s s1 : lruProvider) (hr : Reachable c s) (st : Storage)
    (x : String) (r : Bytes × Option String) (h : Read s st x = .ok (r, s1)) :
    ∃ s2, Read s1 st x = .ok (r, s2) ∧ s2 = s1 ∧ s2.Cache = s1.Cache ∧
      walk s2 = walk s1 ∧ s2.CacheSize = s1.CacheSize := by
  obtain ⟨L, hI, _⟩ := hr.inv
  exact ⟨s1, Read_twice hI h, rfl, rfl, rfl, rfl⟩

/-- C19 at capacity 100 holding `b`, `a`: `Read(a)` moves `a` to the front, and
a second `Read(a)` changes nothing. -/
theorem state_idempotent_witness :
    ∃ s2, Read cacheAB (files []) "a" = .ok ((zeros 40, none), s2) ∧ s2 = cacheAB ∧
      s2.Cache = cacheAB.Cache ∧ walk s2 = walk cacheAB ∧ s2.CacheSize = cacheAB.CacheSize :=
  state_idempotent 100 cacheBA cacheAB reach_cacheBA (files []) "a" (zeros 40, none)
    (by decide!)

/-- C15. Insertion without eviction: in every reachable state with head-to-tail
walk `L`, a miss on `x` whose content has size at most `MaxSize - CacheSize`
(the exact fit included) returns the content and evicts nothing: the walk
afterwards is the new element followed by all of `L`, the old elements keep
name, size and content, the `Cache` map is the old one with `x` added,
`CacheSize` has grown by the size, `Header` is the new element and, when `L`
was empty, so is `Tailer`. -/
theorem insertion_without_eviction (c : Int) (s : lruProvider) (hr : Reachable c s)
    (L : List Nat) (hw : walk s = .ok L) (st : Storage) (x : String) (content : Bytes)
    (hmiss : mapGet s.Cache x = none) (hst : st x = .ok content)
    (hfit : (content.length : Int) ≤ s.MaxSize - s.CacheSize) :
    ∃ s', Read s st x = .ok ((content, none), s') ∧
      walk s' = .ok (s.heap.length :: L) ∧ s.heap.length ∉ L ∧
      payload s'.heap s.heap.length = some (x, (content.length : Int), content) ∧
      (∀ a ∈ L, payload s'.heap a = payload s.heap a) ∧
      s'.Cache = (x, s.heap.length) :: s.Cache ∧
      (∀ k, mapGet s'.Cache k = if x = k then some s.heap.length else mapGet s.Cache k) ∧
      s'.CacheSize = s.CacheSize + content.length ∧
      s'.Header = some s.heap.length ∧ (L = [] → s'.Tailer = some s.heap.length) := by
  have hI := hr.wellFormed.walk hw
  obtain ⟨s', hres, hI', hE, _, hnew, hCS, hC⟩ := update_fits hI hmiss hfit
  refine ⟨s', by rw [Read_miss_ok s st x content hmiss hst]; exact hres, walk_eq hI',
    fun h => lt_irrefl _ (hI.valid _ h), hnew, fun a ha => hE.payload a (hI.valid a ha), hC,
    fun k => ?_, hCS, hI'.header, fun hL => ?_⟩
  · rw [hC]
    rfl
  · rw [hI'.tailer, hL]
    rfl

/-- C15 at capacity 100 holding `a` of 60 bytes: `b` of 40 bytes fits exactly. -/
theorem insertion_without_eviction_witness :
    ∃ s', Read cacheA60 (files [("b", 40)]) "b" = .ok ((zeros 40, none), s') ∧
      walk s' = .ok (cacheA60.heap.length :: [0]) ∧ cacheA60.heap.length ∉ [0] ∧
      payload s'.heap cacheA60.heap.length = some ("b", ((zeros 40).length : Int), zeros 40) ∧
      (∀ a ∈ [0], payload s'.heap a = payload cacheA60.heap a) ∧
      s'.Cache = ("b", cacheA60.heap.length) :: cacheA60.Cache ∧
      (∀ k, mapGet s'.Cache k =
        if "b" = k then some cacheA60.heap.length else mapGet cacheA60.Cache k) ∧
      s'.CacheSize = cacheA60.CacheSize + (zeros 40).length ∧
      s'.Header = some cacheA60.heap.length ∧
      ([0] = [] → s'.Tailer = some cacheA60.heap.length) :=
  insertion_without_eviction 100 cacheA60 reach_cacheA60 [0] (by decide!) (files [("b", 40)])
    "b" (zeros 40) (by decide!) (by decide!) (by decide!)

/-- C17. Empty-state invariant: in every reachable state `Header` is nil iff
`Tailer` is nil iff the `Cache` map is empty. When the list has one element,
the pass of the eviction loop that takes it leaves `Header` and `Tailer` nil
and the map empty; when the cache is empty, the insertion of an element that
fits makes the new element both `Header` and `Tailer`. -/
theorem empty_state (c : Int) (s : lruProvider) (hr : Reachable c s) :
    (s.Header = none ↔ s.Tailer = none) ∧ (s.Tailer = none ↔ s.Cache = []) ∧
      (∀ t, walk s = .ok [t] →
        ∃ sz s', evictStep s = .ok (sz, s') ∧ s'.Header = none ∧ s'.Tailer = none ∧
          s'.Cache = []) ∧
      (s.Cache = [] → ∀ (x : String) (content : Bytes), (content.length : Int) ≤ s.MaxSize →
        ∃ s', insertHead s x content.length content = .ok s' ∧
          s'.Header = some s.heap.length ∧ s'.Tailer = some s.heap.length ∧
          s'.Cache = [(x, s.heap.length)]) := by
  obtain ⟨L, hI, _⟩ := hr.inv
  refine ⟨?_, ?_, fun t ht => ?_, fun hC x content hle => ?_⟩
  · rw [hI.header, hI.tailer, List.head?_eq_none_iff, List.getLast?_eq_none_iff]
  · rw [hI.tailer, List.getLast?_eq_none_iff, hI.cache_nil_iff]
  · rw [walk_eq hI] at ht
    cases ht
    have hI1 : Inv s ([] ++ [t]) := hI
    obtain ⟨s', hstep, hI', _⟩ := evictStep_spec hI1
    exact ⟨_, s', hstep, hI'.header, hI'.tailer, hI'.cache_nil_iff.2 rfl⟩
  · have hL : L = [] := hI.cache_nil_iff.1 hC
    subst hL
    have h0 : s.CacheSize = 0 := by rw [hI.size]; rfl
    have hmiss : mapGet s.Cache x = none := by rw [hC]; rfl
    obtain ⟨s', hins, hI', _, _, _, _, hC'⟩ :=
      insertHead_spec hI hmiss (by omega : (content.length : Int) ≤ s.MaxSize - s.CacheSize)
    refine ⟨s', hins, hI'.header, hI'.tailer, ?_⟩
    rw [hC', hC]
    rfl

/-- C17 at capacity 100 holding the single element `a` of 60 bytes. -/
theorem empty_state_witness :
    (cacheA60.Header = none ↔ cacheA60.Tailer = none) ∧
      (cacheA60.Tailer = none ↔ cacheA60.Cache = []) ∧
      (∀ t, walk cacheA60 = .ok [t] →
        ∃ sz s', evictStep cacheA60 = .ok (sz, s') ∧ s'.Header = none ∧ s'.Tailer = none ∧
          s'.Cache = []) ∧
      (cacheA60.Cache = [] → ∀ (x : String) (content : Bytes),
        (content.length : Int) ≤ cacheA60.MaxSize →
        ∃ s', insertHead cacheA60 x content.length content = .ok s' ∧
          s'.Header = some cacheA60.heap.length ∧ s'.Tailer = some cacheA60.heap.length ∧
          s'.Cache = [(x, cacheA60.heap.length)]) :=
  empty_state 100 cacheA60 reach_cacheA60

/-- C18. What the eviction loop frees: in every reachable state with
head-to-tail walk `L`, for a miss whose content has size `n` with
`MaxSize - CacheSize < n ≤ MaxSize`, if `Read` returns then the walk afterwards
is the new element followed by `L` without its last `k` elements, where `k ≥ 1`
is the least number for which `MaxSize - CacheSize` plus the sizes of the `k`
least recently used elements is strictly greater than `n`; and afterwards
`CacheSize < MaxSize`. -/
theorem eviction_loop_frees (c : Int) (s s' : lruProvider) (hr : Reachable c s)
    (L : List Nat) (hw : walk s = .ok L) (st : Storage) (x : String) (content : Bytes)
    (r : Bytes × Option String) (hmiss : mapGet s.Cache x = none) (hst : st x = .ok content)
    (hgt : s.MaxSize - s.CacheSize < (content.length : Int))
    (hle : (content.length : Int) ≤ s.MaxSize) (hread : Read s st x = .ok (r, s')) :
    ∃ k, 1 ≤ k ∧ k ≤ L.length ∧
      walk s' = .ok (s.heap.length :: L.take (L.length - k)) ∧
      (content.length : Int) < s.MaxSize - s.CacheSize + lruBytes s L k ∧
      (∀ j, j < k → s.MaxSize - s.CacheSize + lruBytes s L j ≤ content.length) ∧
      s'.CacheSize < s'.MaxSize := by
  have hI := hr.wellFormed.walk hw
  rw [Read_miss_ok s st x content hmiss hst] at hread
  rcases update_spec hI hmiss hle with
    ⟨s1, L', E, hL, hres, hI1, hE1, _, _, hCS, hiff, hmin, hstrict, _⟩ | ⟨hres, _⟩
  · rw [hres] at hread
    cases hread
    subst hL
    have hEne : E ≠ [] := fun h => by
      have := hiff.1 h
      omega
    have hlt := hstrict hEne
    have hlenE : 1 ≤ E.length := by
      cases E with
      | nil => exact absurd rfl hEne
      | cons a E2 => simp
    have hdropk : (L' ++ E).length - E.length = L'.length := by simp
    have hnn : ∀ a ∈ E, 0 ≤ sizeAt s.heap a :=
      fun a ha => sizeAt_nonneg hI (List.mem_append_right _ ha)
    refine ⟨E.length, hlenE, by simp, ?_, ?_, fun j hj => ?_, ?_⟩
    · rw [hdropk, List.take_left]
      exact walk_eq hI1
    · unfold lruBytes
      rw [hdropk, List.drop_left]
      exact hlt
    · unfold lruBytes
      have hidx : (L' ++ E).length - j = L'.length + (E.length - j) := by
        simp only [List.length_append]
        omega
      rw [hidx, List.drop_append]
      cases E with
      | nil => exact absurd rfl hEne
      | cons a E2 =>
        have hm := hmin a E2 rfl
        obtain ⟨m, hm'⟩ : ∃ m, (a :: E2).length - j = m + 1 :=
          ⟨(a :: E2).length - j - 1, by omega⟩
        rw [hm', List.drop_succ_cons]
        have := sum_drop_le (f := sizeAt s.heap) E2 m
          (fun b hb => hnn b (List.mem_cons_of_mem _ hb))
        omega
    · rw [hCS, hE1.maxSize]
      omega
  · rw [hres] at hread
    cases hread

/-- C18 at capacity 100 holding `b`, `a` of 40 bytes each (20 bytes free), miss
on `c` of 60 bytes: one eviction gives 60, not more than 60, so `k` is 2. -/
theorem eviction_loop_frees_witness :
    ∃ k, 1 ≤ k ∧ k ≤ [1, 0].length ∧
      walk cacheC = .ok (cacheBA.heap.length :: [1, 0].take ([1, 0].length - k)) ∧
      ((zeros 60).length : Int) < cacheBA.MaxSize - cacheBA.CacheSize + lruBytes cacheBA [1, 0] k ∧
      (∀ j, j < k →
        cacheBA.MaxSize - cacheBA.CacheSize + lruBytes cacheBA [1, 0] j ≤ (zeros 60).length) ∧
      cacheC.CacheSize < cacheC.MaxSize :=
  eviction_loop_frees 100 cacheBA cacheC reach_cacheBA [1, 0] (by decide!) (files [("c", 60)])
    "c" (zeros 60) (zeros 60, none) (by decide!) (by decide!) (by decide!) (by decide!)
    (by decide!)

/-- C12 fails on the code. `cacheA` (capacity 100, `a` of 40 bytes) satisfies
the invariants and has `a` in the `Cache` map. The locked update of a second
miss on `a` with 40 bytes, which fits, inserts a second element for `a`:
afterwards `CacheSize` is 80 while the entries of the map sum to 40, the walk
visits two elements while the map holds one, and the invariants do not hold. -/
theorem duplicate_insert_breaks_invariants :
    WellFormed cacheA ∧ mapGet cacheA.Cache "a" = some 0 ∧
      ((zeros 40).length : Int) ≤ cacheA.MaxSize ∧
      update cacheA "a" (zeros 40) = .ok ((zeros 40, none), cacheDup) ∧
      cacheDup.CacheSize = 80 ∧ cacheBytes cacheDup = 40 ∧
      walk cacheDup = .ok [1, 0] ∧ cacheDup.Cache = [("a", 1)] ∧
      ¬ WellFormed cacheDup := by
  refine ⟨reach_cacheA.wellFormed, by decide!, by decide!, by decide!, by decide!, by decide!,
    by decide!, by decide!, ?_⟩
  rintro ⟨L, hI⟩
  have h1 := cacheBytes_eq hI
  have h2 : cacheBytes cacheDup = 40 := by decide!
  have h3 : cacheDup.CacheSize = 80 := by decide!
  omega

/-- C13 fails on the code. In every call of `Read` the first event is the
lookup in the `Cache` map (line 48), made before any `Lock` (line 49 or 85),
so the trace of the call breaks the lock discipline; every event after that
lookup is made with the mutex held. -/
theorem lookup_outside_lock (lru : lruProvider) (st : Storage) (x : String) :
    (ReadEvents lru st x).head? = some Event.lookup ∧
      lockDiscipline false (ReadEvents lru st x) = false ∧
      lockDiscipline false (ReadEvents lru st x).tail = true := by
  unfold ReadEvents
  cases mapGet lru.Cache x with
  | some a => exact ⟨rfl, rfl, rfl⟩
  | none => cases st x <;> exact ⟨rfl, rfl, rfl⟩

end LRU

